import Mathlib

/-!
# Verification of the maelstrom worker core

Shallow embedding of the worker-side execution subsystem of the maelstrom
repository: the SHA-256 digest string form (`maelstrom-base/src/lib.rs`),
the content-addressed artifact cache (`maelstrom-worker/src/cache.rs`), and
the worker dispatcher (`maelstrom-worker/src/dispatcher.rs`).

Machine integers are modelled as `Nat` with explicit bound checks where the
source uses checked arithmetic (`checked_add`, `checked_sub`, `NonZeroU32`,
`try_into`); operations that panic in the source return `none`.
-/

namespace Maelstrom

/-! ## Digest string form (maelstrom-base/src/lib.rs)

A `Sha256Digest` is a 32-byte value (`[u8; 32]`), modelled as a `List Nat`
whose elements are below 256.  `FromStr for Sha256Digest` calls
`hex::decode_to_slice(value, &mut [0; 32])`, which fails unless the input
is exactly 64 characters, every character a hex digit (upper or lower
case).  `fmt::Display for Sha256Digest` calls `hex::encode_to_slice`,
which produces lowercase hex. -/

/-- Decode one hex character, as the `hex` crate's `val` does (its match
checks the ranges `A-F`, `a-f`, `0-9` in that order; anything else is
rejected). -/
def decodeHexChar : Char → Option Nat
  | 'F' => some 15
  | 'E' => some 14
  | 'D' => some 13
  | 'C' => some 12
  | 'B' => some 11
  | 'A' => some 10
  | 'f' => some 15
  | 'e' => some 14
  | 'd' => some 13
  | 'c' => some 12
  | 'b' => some 11
  | 'a' => some 10
  | '9' => some 9
  | '8' => some 8
  | '7' => some 7
  | '6' => some 6
  | '5' => some 5
  | '4' => some 4
  | '3' => some 3
  | '2' => some 2
  | '1' => some 1
  | '0' => some 0
  | _ => none

/-- Encode one hex digit in lowercase, as `hex::encode_to_slice` does via
its lowercase table. -/
def encodeHexDigit : Nat → Char
  | 15 => 'f'
  | 14 => 'e'
  | 13 => 'd'
  | 12 => 'c'
  | 11 => 'b'
  | 10 => 'a'
  | 9 => '9'
  | 8 => '8'
  | 7 => '7'
  | 6 => '6'
  | 5 => '5'
  | 4 => '4'
  | 3 => '3'
  | 2 => '2'
  | 1 => '1'
  | _ => '0'

/-- One byte becomes two lowercase hex characters, high nibble first. -/
def byteToHex (b : Nat) : List Char :=
  [encodeHexDigit (b / 16), encodeHexDigit (b % 16)]

/-- `impl fmt::Display for Sha256Digest`: the 32 bytes, each as two
lowercase hex characters. -/
def digestToChars (bs : List Nat) : List Char :=
  bs.flatMap byteToHex

/-- Decode a hex string two characters at a time, as
`hex::decode_to_slice` does; fails on an odd-length tail or a non-hex
character. -/
def hexDecodeChars : List Char → Option (List Nat)
  | [] => some []
  | [_] => none
  | hi :: lo :: rest => do
    let h ← decodeHexChar hi
    let l ← decodeHexChar lo
    let r ← hexDecodeChars rest
    pure ((h * 16 + l) :: r)

/-- `impl FromStr for Sha256Digest`: `hex::decode_to_slice` into a 32-byte
buffer requires the input to be exactly 64 characters and fully hex. -/
def digestFromChars (s : List Char) : Option (List Nat) :=
  if s.length = 64 then hexDecodeChars s else none

/-- A character accepted by the hex parser. -/
def isHexChar (c : Char) : Bool :=
  (decodeHexChar c).isSome

theorem decodeHexChar_spec {c : Char} {v : Nat} (h : decodeHexChar c = some v) :
    v < 16 ∧ encodeHexDigit v = c.toLower := by
  unfold decodeHexChar at h
  split at h <;> simp_all <;> subst h <;> decide

theorem decodeHexChar_encodeHexDigit {v : Nat} (h : v < 16) :
    decodeHexChar (encodeHexDigit v) = some v := by
  interval_cases v <;> decide

theorem hexDecodeChars_digestToChars {bs : List Nat} (h : ∀ b ∈ bs, b < 256) :
    hexDecodeChars (digestToChars bs) = some bs := by
  induction bs with
  | nil => rfl
  | cons b rest ih =>
    have hb : b < 256 := h b (List.mem_cons_self _ _)
    have hdiv : b / 16 < 16 := Nat.div_lt_of_lt_mul (by omega)
    have hmod : b % 16 < 16 := Nat.mod_lt _ (by omega)
    have hrecon : b / 16 * 16 + b % 16 = b := by omega
    have hstep : digestToChars (b :: rest) =
        encodeHexDigit (b / 16) :: encodeHexDigit (b % 16) :: digestToChars rest := by
      simp [digestToChars, byteToHex]
    rw [hstep]
    simp only [hexDecodeChars, decodeHexChar_encodeHexDigit hdiv,
      decodeHexChar_encodeHexDigit hmod, Option.bind_eq_bind, Option.some_bind]
    rw [ih (fun x hx => h x (List.mem_cons_of_mem _ hx))]
    simp [hrecon]

theorem digestToChars_length (bs : List Nat) :
    (digestToChars bs).length = 2 * bs.length := by
  induction bs with
  | nil => rfl
  | cons b rest ih =>
    simp [digestToChars, byteToHex] at ih ⊢
    omega

/-- Decoding a fully-hex, even-length character list succeeds, and
re-encoding the bytes gives the lowercase form of the input. -/
theorem hexDecodeChars_total :
    ∀ (s : List Char), s.length % 2 = 0 → (∀ c ∈ s, isHexChar c) →
      ∃ bs, hexDecodeChars s = some bs ∧ bs.length = s.length / 2 ∧
        (∀ b ∈ bs, b < 256) ∧ digestToChars bs = s.map Char.toLower
  | [], _, _ => ⟨[], rfl, rfl, by simp, rfl⟩
  | [_], h, _ => by simp at h
  | hi :: lo :: rest, heven, hhex => by
    have hhi : isHexChar hi := hhex hi (by simp)
    have hlo : isHexChar lo := hhex lo (by simp)
    obtain ⟨h, hh⟩ := Option.isSome_iff_exists.mp hhi
    obtain ⟨l, hl⟩ := Option.isSome_iff_exists.mp hlo
    have hrest : rest.length % 2 = 0 := by simp at heven; omega
    obtain ⟨bs, hbs, hlen, hlt, henc⟩ :=
      hexDecodeChars_total rest hrest (fun c hc => hhex c (by simp [hc]))
    obtain ⟨hh16, hhenc⟩ := decodeHexChar_spec hh
    obtain ⟨hl16, hlenc⟩ := decodeHexChar_spec hl
    refine ⟨(h * 16 + l) :: bs, ?_, ?_, ?_, ?_⟩
    · simp [hexDecodeChars, hh, hl, hbs]
    · simp [hlen]; omega
    · intro b hb
      rcases List.mem_cons.mp hb with hb | hb
      · omega
      · exact hlt b hb
    · have hdiv : (h * 16 + l) / 16 = h := by omega
      have hmod : (h * 16 + l) % 16 = l := by omega
      simp [digestToChars, byteToHex, hdiv, hmod, hhenc, hlenc]
      exact henc

/-- **C9.** Digest parse/format round trips: for every 32-byte digest,
`parse (format d) = d`; for every valid 64-character hex string (upper or
lower case), `format (parse s) = lowercase s`; and parsing fails for a
string of the wrong length or one containing a non-hex character. -/
theorem digest_parse_format_roundtrip (bs : List Nat) (s : List Char)
    (hlen : bs.length = 32) (hbytes : ∀ b ∈ bs, b < 256) :
    digestFromChars (digestToChars bs) = some bs ∧
    (s.length = 64 → (∀ c ∈ s, isHexChar c) →
      ∃ bs', digestFromChars s = some bs' ∧
        digestToChars bs' = s.map Char.toLower) ∧
    (s.length ≠ 64 → digestFromChars s = none) ∧
    ((∃ c ∈ s, ¬ isHexChar c) → digestFromChars s = none) := by
  refine ⟨?_, ?_, ?_, ?_⟩
  · rw [digestFromChars, if_pos (by rw [digestToChars_length, hlen])]
    exact hexDecodeChars_digestToChars hbytes
  · intro h64 hhex
    obtain ⟨bs', hbs', _, _, henc⟩ :=
      hexDecodeChars_total s (by omega) hhex
    exact ⟨bs', by rw [digestFromChars, if_pos h64]; exact hbs', henc⟩
  · intro hne
    rw [digestFromChars, if_neg hne]
  · rintro ⟨c, hc, hbad⟩
    rw [digestFromChars]
    split
    · -- a non-hex character makes hexDecodeChars fail
      rename_i h64
      clear h64 hlen hbytes
      induction s using hexDecodeChars.induct with
      | case1 => simp at hc
      | case2 => rfl
      | case3 hi lo rest ih =>
        rcases List.mem_cons.mp hc with rfl | hc'
        · simp [isHexChar, Option.isSome_iff_exists] at hbad
          simp [hexDecodeChars, Option.eq_none_iff_forall_not_mem] at hbad ⊢
          intro x hx
          cases hdc : decodeHexChar c
          · simp [hdc] at hx
          · exact absurd hdc (by simp [hbad])
        · rcases List.mem_cons.mp hc' with rfl | hc''
          · simp [isHexChar, Option.isSome_iff_exists] at hbad
            simp [hexDecodeChars]
            cases hdc : decodeHexChar hi <;> simp
            cases hdc2 : decodeHexChar c
            · simp
            · exact absurd hdc2 (by simp [hbad])
          · have := ih hc''
            simp [hexDecodeChars]
            cases hdc : decodeHexChar hi <;> simp
            cases hdc2 : decodeHexChar lo <;> simp
            simp [this]
    · rfl

/-- Witness for C9 at a concrete digest and hex string. -/
theorem digest_parse_format_roundtrip_witness :
    digestFromChars (digestToChars (List.replicate 31 0 ++ [42])) =
      some (List.replicate 31 0 ++ [42]) := by
  have h := digest_parse_format_roundtrip (List.replicate 31 0 ++ [42]) []
    (by decide) (by decide)
  exact h.1

/-! ## Association lists

`HashMap<K, V>` from the source is modelled as an association list with
distinct keys (distinctness is part of the reachable-state invariants).
Lookup, in-place update and removal mirror the `HashMap` entry API. -/

/-- Look up the first entry with the given key. -/
def assocLookup {α β : Type} [DecidableEq α] : List (α × β) → α → Option β
  | [], _ => none
  | (k', v) :: rest, k => if k' = k then some v else assocLookup rest k

/-- Replace the value of the first entry with the given key. -/
def assocUpdate {α β : Type} [DecidableEq α] : List (α × β) → α → β → List (α × β)
  | [], _, _ => []
  | (k', v') :: rest, k, v =>
    if k' = k then (k, v) :: rest else (k', v') :: assocUpdate rest k v

/-- Remove the first entry with the given key. -/
def assocErase {α β : Type} [DecidableEq α] : List (α × β) → α → List (α × β)
  | [], _ => []
  | (k', v') :: rest, k => if k' = k then rest else (k', v') :: assocErase rest k

section AssocLemmas

variable {α β : Type} [DecidableEq α]

theorem assocLookup_eq_none {l : List (α × β)} {k : α} :
    assocLookup l k = none ↔ k ∉ l.map Prod.fst := by
  induction l with
  | nil => simp [assocLookup]
  | cons kv rest ih =>
    obtain ⟨k', v⟩ := kv
    by_cases h : k' = k
    · subst h
      simp [assocLookup]
    · simp only [assocLookup, if_neg h, List.map_cons, List.mem_cons, ih]
      constructor
      · rintro hn (rfl | hm)
        · exact h rfl
        · exact hn hm
      · exact fun hn hm => hn (Or.inr hm)

theorem assocUpdate_map_fst (l : List (α × β)) (k : α) (v : β) :
    (assocUpdate l k v).map Prod.fst = l.map Prod.fst := by
  induction l with
  | nil => rfl
  | cons kv rest ih =>
    obtain ⟨k', v'⟩ := kv
    by_cases h : k' = k <;> simp [assocUpdate, h, ih]

theorem assocLookup_update_self {l : List (α × β)} {k : α} {old : β} (v : β)
    (h : assocLookup l k = some old) :
    assocLookup (assocUpdate l k v) k = some v := by
  induction l with
  | nil => simp [assocLookup] at h
  | cons kv rest ih =>
    obtain ⟨k', v'⟩ := kv
    by_cases hk : k' = k
    · simp [assocLookup, assocUpdate, hk]
    · simp [assocLookup, assocUpdate, hk] at h ⊢
      exact ih h

theorem assocLookup_update_ne {l : List (α × β)} {k k' : α} (v : β)
    (h : k' ≠ k) :
    assocLookup (assocUpdate l k v) k' = assocLookup l k' := by
  induction l with
  | nil => rfl
  | cons kv rest ih =>
    obtain ⟨k₀, v₀⟩ := kv
    by_cases hk : k₀ = k
    · subst hk
      simp [assocUpdate, assocLookup, Ne.symm h]
    · simp only [assocUpdate, if_neg hk]
      by_cases hk' : k₀ = k'
      · simp [assocLookup, hk']
      · simp [assocLookup, hk', ih]

theorem assocErase_map_fst_sublist (l : List (α × β)) (k : α) :
    ((assocErase l k).map Prod.fst).Sublist (l.map Prod.fst) := by
  induction l with
  | nil => simp [assocErase]
  | cons kv rest ih =>
    obtain ⟨k', v'⟩ := kv
    by_cases h : k' = k
    · simp only [assocErase, if_pos h, List.map_cons]
      exact List.sublist_cons_of_sublist _ (List.Sublist.refl _)
    · simp only [assocErase, if_neg h, List.map_cons]
      exact ih.cons₂ _

theorem assocLookup_erase_ne {l : List (α × β)} {k k' : α} (h : k' ≠ k) :
    assocLookup (assocErase l k) k' = assocLookup l k' := by
  induction l with
  | nil => rfl
  | cons kv rest ih =>
    obtain ⟨k₀, v₀⟩ := kv
    by_cases hk : k₀ = k
    · subst hk
      simp [assocErase, assocLookup, Ne.symm h]
    · simp only [assocErase, if_neg hk]
      by_cases hk' : k₀ = k'
      · simp [assocLookup, hk']
      · simp [assocLookup, hk', ih]

theorem assocLookup_erase_self {l : List (α × β)} {k : α}
    (hnd : (l.map Prod.fst).Nodup) :
    assocLookup (assocErase l k) k = none := by
  induction l with
  | nil => rfl
  | cons kv rest ih =>
    obtain ⟨k₀, v₀⟩ := kv
    simp only [List.map_cons, List.nodup_cons] at hnd
    by_cases hk : k₀ = k
    · subst hk
      simp only [assocErase, if_pos rfl]
      rw [assocLookup_eq_none]
      exact hnd.1
    · simp [assocErase, hk, assocLookup, ih hnd.2]

theorem assocLookup_mem {l : List (α × β)} {k : α} {v : β}
    (h : assocLookup l k = some v) : (k, v) ∈ l := by
  induction l with
  | nil => simp [assocLookup] at h
  | cons kv rest ih =>
    obtain ⟨k₀, v₀⟩ := kv
    by_cases hk : k₀ = k
    · subst hk
      simp [assocLookup] at h
      simp [h]
    · simp [assocLookup, hk] at h
      exact List.mem_cons_of_mem _ (ih h)

theorem assocErase_length_lt {l : List (α × β)} {k : α}
    (h : k ∈ l.map Prod.fst) : (assocErase l k).length < l.length := by
  induction l with
  | nil => simp at h
  | cons kv rest ih =>
    obtain ⟨k₀, v₀⟩ := kv
    by_cases hk : k₀ = k
    · simp [assocErase, hk]
    · simp only [List.map_cons, List.mem_cons] at h
      rcases h with h | h
      · exact absurd h.symm hk
      · simp only [assocErase, if_neg hk, List.length_cons]
        exact Nat.succ_lt_succ (ih h)

theorem assocErase_subset {l : List (α × β)} {k : α} {kv : α × β}
    (h : kv ∈ assocErase l k) : kv ∈ l := by
  induction l with
  | nil => simp [assocErase] at h
  | cons kv₀ rest ih =>
    obtain ⟨k₀, v₀⟩ := kv₀
    by_cases hk : k₀ = k
    · simp [assocErase, hk] at h
      exact List.mem_cons_of_mem _ h
    · simp only [assocErase, if_neg hk, List.mem_cons] at h
      rcases h with h | h
      · simp [h]
      · exact List.mem_cons_of_mem _ (ih h)

theorem assocErase_mem_ne {l : List (α × β)} {k : α} {kv : α × β}
    (hnd : (l.map Prod.fst).Nodup) (hkl : k ∈ l.map Prod.fst)
    (h : kv ∈ assocErase l k) : kv ∈ l ∧ kv.1 ≠ k := by
  refine ⟨assocErase_subset h, ?_⟩
  induction l with
  | nil => simp at hkl
  | cons kv₀ rest ih =>
    obtain ⟨k₀, v₀⟩ := kv₀
    simp only [List.map_cons, List.nodup_cons] at hnd
    by_cases hk : k₀ = k
    · subst hk
      simp only [assocErase, if_pos rfl] at h
      intro hkv
      exact hnd.1 (hkv ▸ List.mem_map_of_mem Prod.fst h)
    · simp only [assocErase, if_neg hk, List.mem_cons] at h
      simp only [List.map_cons, List.mem_cons] at hkl
      rcases hkl with hkl | hkl
      · exact absurd hkl.symm hk
      · rcases h with h | h
        · subst h
          exact hk
        · exact ih hnd.2 hkl h

end AssocLemmas

/-! ## Artifact cache (maelstrom-worker/src/cache.rs)

The cache maps `(kind, digest)` keys to entries in one of three states,
tracks `bytes_used`, and keeps the unreferenced entries in a min-heap
keyed by `priority`.  The `Heap` type lives in `maelstrom-util` (not part
of the sources here); it is modelled from the spec as a collection of
`(key, priority)` pairs from which `pop` extracts a pair of minimal
priority — faithful because an entry's priority never changes between the
`push` at its last `decrement_ref_count` and its removal from the heap
(`heap_index` bookkeeping is internal to that representation and carries
no observable behavior).  Filesystem side effects (quarantine renames,
background deletion) are not part of the state; `u32`/`u64` checked
arithmetic is modelled with explicit bound checks, panics as `none`. -/

/-- `maelstrom_base::JobId`: pair `(ClientId, ClientJobId)`, both `u32`. -/
structure JobId where
  cid : Nat
  cjid : Nat
deriving DecidableEq, Repr

/-- `cache::EntryKind`. -/
inductive EntryKind where
  | blob
  | bottomFsLayer
  | upperFsLayer
deriving DecidableEq, Repr

/-- `impl fmt::Display for EntryKind`: the cache subdirectory name. -/
def EntryKind.dirName : EntryKind → String
  | .blob => "blob"
  | .bottomFsLayer => "bottom_fs_layer"
  | .upperFsLayer => "upper_fs_layer"

/-- `cache::Key`: pair of kind and digest. -/
structure Key where
  kind : EntryKind
  digest : List Nat
deriving DecidableEq, Repr

/-- `cache::Entry`: the three entry states.  `heap_index` of `InHeap` is
omitted (see the heap modelling note above). -/
inductive Entry where
  | downloadingAndExtracting (waiters : List JobId)
  | inUse (bytesUsed : Nat) (refCount : Nat)
  | inHeap (bytesUsed : Nat) (priority : Nat)
deriving DecidableEq, Repr

/-- `cache::GetArtifact`: result of `Cache::get_artifact`. -/
inductive GetArtifact where
  | success (path : List String)
  | wait
  | get (path : List String)
deriving DecidableEq, Repr

def u32Max : Nat := 2 ^ 32 - 1

def u64Max : Nat := 2 ^ 64 - 1

/-- `cache::Cache`: the mutable cache state. -/
structure CacheState where
  root : String
  entries : List (Key × Entry)
  heap : List (Key × Nat)
  nextPriority : Nat
  bytesUsed : Nat
  bytesUsedTarget : Nat
deriving DecidableEq

/-- `Cache::new`: empty map and heap, zero bytes used. -/
def CacheState.new (root : String) (target : Nat) : CacheState :=
  { root := root, entries := [], heap := [], nextPriority := 0,
    bytesUsed := 0, bytesUsedTarget := target }

/-- `Cache::cache_path`: `<root>/<kind>/sha256/<lowercase hex digest>`,
modelled as the list of path components. -/
def cachePath (root : String) (key : Key) : List String :=
  [root, key.kind.dirName, "sha256", String.mk (digestToChars key.digest)]

/-- Extract a minimal-priority pair, as `Heap::pop` of the min-heap does. -/
def heapMin : List (Key × Nat) → Option (Key × Nat)
  | [] => none
  | kp :: rest =>
    match heapMin rest with
    | none => some kp
    | some mp => if kp.2 ≤ mp.2 then some kp else some mp

theorem heapMin_mem {l : List (Key × Nat)} {kp : Key × Nat}
    (h : heapMin l = some kp) : kp ∈ l := by
  induction l with
  | nil => simp [heapMin] at h
  | cons kp₀ rest ih =>
    simp only [heapMin] at h
    split at h
    · injection h with h
      subst h
      exact List.mem_cons_self _ _
    · rename_i mp hm
      split at h <;> injection h with h <;> subst h
      · exact List.mem_cons_self _ _
      · exact List.mem_cons_of_mem _ (ih hm)

theorem heapMin_eq_none {l : List (Key × Nat)} :
    heapMin l = none ↔ l = [] := by
  cases l with
  | nil => simp [heapMin]
  | cons kp rest =>
    simp only [heapMin]
    cases heapMin rest with
    | none => simp
    | some mp => by_cases hle : kp.2 ≤ mp.2 <;> simp [hle]

theorem heapMin_le :
    ∀ (l : List (Key × Nat)) (kp : Key × Nat), heapMin l = some kp →
      ∀ kp' ∈ l, kp.2 ≤ kp'.2
  | [], _, h => by simp [heapMin] at h
  | kp₀ :: rest, kp, h => by
    intro kp' hkp'
    simp only [heapMin] at h
    split at h
    · rename_i hm
      injection h with h
      subst h
      rcases List.mem_cons.mp hkp' with rfl | hmem
      · exact le_refl _
      · rw [heapMin_eq_none] at hm
        subst hm
        simp at hmem
    · rename_i mp hm
      have hrest := heapMin_le rest mp hm
      split at h <;> injection h with h <;> subst h
      · rcases List.mem_cons.mp hkp' with rfl | hmem
        · exact le_refl _
        · rename_i hle
          exact le_trans hle (hrest kp' hmem)
      · rcases List.mem_cons.mp hkp' with rfl | hmem
        · rename_i hle
          omega
        · exact hrest kp' hmem

/-- Bytes an entry contributes to the total: a `DownloadingAndExtracting`
entry counts as zero. -/
def Entry.bytes : Entry → Nat
  | .downloadingAndExtracting _ => 0
  | .inUse b _ => b
  | .inHeap b _ => b

def Entry.isInHeap : Entry → Bool
  | .inHeap _ _ => true
  | _ => false

/-- Sum of `bytes_used` over all entries (`InUse` and `InHeap`). -/
def sumBytes (entries : List (Key × Entry)) : Nat :=
  (entries.map (fun ke => ke.2.bytes)).sum

/-- `Cache::possibly_remove_some`: while `bytes_used > target`, pop the
minimal-priority heap entry, remove it from the map (it must be `InHeap`,
else the source panics), quarantine its path, and subtract its bytes
(`checked_sub`).  Also returns the eviction sequence
`(key, priority, bytes)` in pop order. -/
def possiblyRemoveSome (c : CacheState) :
    Option (CacheState × List (Key × Nat × Nat)) :=
  if c.bytesUsed ≤ c.bytesUsedTarget then some (c, [])
  else
    match hm : heapMin c.heap with
    | none => some (c, [])
    | some (k, p) =>
      match assocLookup c.entries k with
      | some (.inHeap bytes _) =>
        if bytes ≤ c.bytesUsed then
          match possiblyRemoveSome { c with
              entries := assocErase c.entries k,
              heap := assocErase c.heap k,
              bytesUsed := c.bytesUsed - bytes } with
          | none => none
          | some (c', evs) => some (c', (k, p, bytes) :: evs)
        else none
      | _ => none
termination_by c.heap.length
decreasing_by
  exact assocErase_length_lt (List.mem_map_of_mem Prod.fst (heapMin_mem hm))

/-- `Cache::get_artifact`. -/
def getArtifact (c : CacheState) (kind : EntryKind) (digest : List Nat)
    (jid : JobId) : Option (CacheState × GetArtifact) :=
  let key : Key := ⟨kind, digest⟩
  let path := cachePath c.root key
  match assocLookup c.entries key with
  | none =>
    some ({ c with entries := (key, .downloadingAndExtracting [jid]) :: c.entries },
      .get path)
  | some (.downloadingAndExtracting ws) =>
    some ({ c with
      entries := assocUpdate c.entries key (.downloadingAndExtracting (ws ++ [jid])) },
      .wait)
  | some (.inUse bytes rc) =>
    -- `ref_count.checked_add(1).unwrap()`
    if rc + 1 ≤ u32Max then
      some ({ c with entries := assocUpdate c.entries key (.inUse bytes (rc + 1)) },
        .success path)
    else none
  | some (.inHeap bytes _) =>
    some ({ c with
      entries := assocUpdate c.entries key (.inUse bytes 1),
      heap := assocErase c.heap key },
      .success path)

/-- `Cache::got_artifact_failure`: the entry must be
`DownloadingAndExtracting` (else the source panics); it is removed and the
waiters returned. -/
def gotArtifactFailure (c : CacheState) (kind : EntryKind)
    (digest : List Nat) : Option (CacheState × List JobId) :=
  let key : Key := ⟨kind, digest⟩
  match assocLookup c.entries key with
  | some (.downloadingAndExtracting jobs) =>
    some ({ c with entries := assocErase c.entries key }, jobs)
  | _ => none

/-- `Cache::got_artifact_success`: the entry must be
`DownloadingAndExtracting`; it becomes `InUse` with `ref_count` equal to
the number of waiters (`try_into` to `u32` and `NonZeroU32::new` both
unwrapped), `bytes_used` is added to the total (`checked_add`), eviction
runs, and the path and waiters are returned. -/
def gotArtifactSuccess (c : CacheState) (kind : EntryKind) (digest : List Nat)
    (bytesUsed : Nat) : Option (CacheState × List String × List JobId) :=
  let key : Key := ⟨kind, digest⟩
  match assocLookup c.entries key with
  | some (.downloadingAndExtracting jobs) =>
    if jobs.length = 0 ∨ u32Max < jobs.length then none
    else if c.bytesUsed + bytesUsed ≤ u64Max then
      match possiblyRemoveSome { c with
          entries := assocUpdate c.entries key (.inUse bytesUsed jobs.length),
          bytesUsed := c.bytesUsed + bytesUsed } with
      | none => none
      | some (c', _) => some (c', cachePath c.root key, jobs)
    else none
  | _ => none

/-- `Cache::decrement_ref_count`: the entry must be `InUse`; if the count
stays positive it is decremented, otherwise the entry moves to `InHeap`
with a fresh priority, is pushed on the heap, and eviction runs. -/
def decrementRefCount (c : CacheState) (kind : EntryKind)
    (digest : List Nat) : Option CacheState :=
  let key : Key := ⟨kind, digest⟩
  match assocLookup c.entries key with
  | some (.inUse bytes rc) =>
    if rc = 0 then none -- unrepresentable for `NonZeroU32`
    else if rc - 1 ≠ 0 then
      some { c with entries := assocUpdate c.entries key (.inUse bytes (rc - 1)) }
    else if c.nextPriority + 1 ≤ u64Max then
      match possiblyRemoveSome { c with
          entries := assocUpdate c.entries key (.inHeap bytes c.nextPriority),
          heap := c.heap ++ [(key, c.nextPriority)],
          nextPriority := c.nextPriority + 1 } with
      | none => none
      | some (c', _) => some c'
    else none
  | _ => none

/-- One cache operation, applied when it does not panic. -/
inductive CacheStep : CacheState → CacheState → Prop where
  | get {c c' : CacheState} {kind digest jid r} :
      getArtifact c kind digest jid = some (c', r) → CacheStep c c'
  | failure {c c' : CacheState} {kind digest ws} :
      gotArtifactFailure c kind digest = some (c', ws) → CacheStep c c'
  | success {c c' : CacheState} {kind digest bytes out} :
      gotArtifactSuccess c kind digest bytes = some (c', out) → CacheStep c c'
  | decrement {c c' : CacheState} {kind digest} :
      decrementRefCount c kind digest = some c' → CacheStep c c'

/-- Cache states reachable from `Cache::new`. -/
def CacheReachable (root : String) (target : Nat) (c : CacheState) : Prop :=
  Relation.ReflTransGen CacheStep (CacheState.new root target) c

/-- The cache's internal invariants: distinct keys in the entry map,
distinct keys on the heap, every heap pair backed by an `InHeap` entry of
the same priority, every `DownloadingAndExtracting` entry with at least
one waiter, every `InUse` entry with a positive reference count, and the
byte accounting (`Σ bytes_used over InUse ∪ InHeap = total`). -/
structure CacheWF (c : CacheState) : Prop where
  nodupKeys : (c.entries.map Prod.fst).Nodup
  heapNodup : (c.heap.map Prod.fst).Nodup
  heapSound : ∀ kp ∈ c.heap, ∃ b, assocLookup c.entries kp.1 = some (.inHeap b kp.2)
  waitersNonempty : ∀ k ws,
    assocLookup c.entries k = some (.downloadingAndExtracting ws) → ws ≠ []
  refPos : ∀ k b rc, assocLookup c.entries k = some (.inUse b rc) → 0 < rc
  sumInv : sumBytes c.entries = c.bytesUsed

theorem sumBytes_cons (kv : Key × Entry) (rest : List (Key × Entry)) :
    sumBytes (kv :: rest) = kv.2.bytes + sumBytes rest := by
  simp [sumBytes]

theorem sumBytes_update {l : List (Key × Entry)} {k : Key} {old : Entry}
    (e : Entry) (h : assocLookup l k = some old) :
    sumBytes (assocUpdate l k e) + old.bytes = sumBytes l + e.bytes := by
  induction l with
  | nil => simp [assocLookup] at h
  | cons kv rest ih =>
    obtain ⟨k₀, v₀⟩ := kv
    by_cases hk : k₀ = k
    · simp only [assocLookup, if_pos hk] at h
      injection h with h
      subst h
      simp only [assocUpdate, if_pos hk, sumBytes_cons]
      omega
    · simp only [assocLookup, if_neg hk] at h
      simp only [assocUpdate, if_neg hk, sumBytes_cons]
      have := ih h
      omega

theorem sumBytes_erase {l : List (Key × Entry)} {k : Key} {old : Entry}
    (h : assocLookup l k = some old) :
    sumBytes (assocErase l k) + old.bytes = sumBytes l := by
  induction l with
  | nil => simp [assocLookup] at h
  | cons kv rest ih =>
    obtain ⟨k₀, v₀⟩ := kv
    by_cases hk : k₀ = k
    · simp only [assocLookup, if_pos hk] at h
      injection h with h
      subst h
      simp only [assocErase, if_pos hk, sumBytes_cons]
      omega
    · simp only [assocLookup, if_neg hk] at h
      simp only [assocErase, if_neg hk, sumBytes_cons]
      have := ih h
      omega

theorem bytes_le_sumBytes {l : List (Key × Entry)} {k : Key} {e : Entry}
    (h : assocLookup l k = some e) : e.bytes ≤ sumBytes l := by
  induction l with
  | nil => simp [assocLookup] at h
  | cons kv rest ih =>
    obtain ⟨k₀, v₀⟩ := kv
    by_cases hk : k₀ = k
    · simp only [assocLookup, if_pos hk] at h
      injection h with h
      subst h
      simp [sumBytes_cons]
    · simp only [assocLookup, if_neg hk] at h
      have := ih h
      simp [sumBytes_cons]
      omega

theorem assocLookup_erase_some {α β : Type} [DecidableEq α]
    {l : List (α × β)} {k k' : α} {v : β}
    (hnd : (l.map Prod.fst).Nodup)
    (h : assocLookup (assocErase l k) k' = some v) :
    assocLookup l k' = some v := by
  by_cases hk : k' = k
  · subst hk
    rw [assocLookup_erase_self hnd] at h
    exact absurd h (by simp)
  · rw [assocLookup_erase_ne hk] at h
    exact h

/-- Specification of `possibly_remove_some` on a well-formed cache: the
sweep succeeds, preserves well-formedness, evicts only `InHeap` entries in
ascending priority order, each eviction under pressure, subtracts the
evicted bytes, never touches a `DownloadingAndExtracting` or `InUse`
entry, and stops only at `bytes_used ≤ target` or an empty heap. -/
theorem possiblyRemoveSome_props (c : CacheState) (hwf : CacheWF c) :
    ∃ c' evs, possiblyRemoveSome c = some (c', evs) ∧
      CacheWF c' ∧
      c'.root = c.root ∧ c'.nextPriority = c.nextPriority ∧
      c'.bytesUsedTarget = c.bytesUsedTarget ∧
      (∀ e ∈ evs, (e.1, e.2.1) ∈ c.heap ∧
        assocLookup c.entries e.1 = some (.inHeap e.2.2 e.2.1)) ∧
      List.Pairwise (fun a b => a.2.1 ≤ b.2.1) evs ∧
      c'.bytesUsed + (evs.map (fun e => e.2.2)).sum = c.bytesUsed ∧
      (∀ k e, assocLookup c.entries k = some e → e.isInHeap = false →
        assocLookup c'.entries k = some e) ∧
      (∀ i < evs.length,
        c.bytesUsedTarget < c.bytesUsed - ((evs.take i).map (fun e => e.2.2)).sum) ∧
      (c.bytesUsed ≤ c.bytesUsedTarget → c' = c ∧ evs = []) ∧
      (c'.bytesUsed ≤ c'.bytesUsedTarget ∨ c'.heap = []) := by
  induction c using possiblyRemoveSome.induct with
  | case1 c hle =>
    refine ⟨c, [], ?_, hwf, rfl, rfl, rfl, by simp, by simp, by simp, ?_, by simp, ?_, ?_⟩
    · rw [possiblyRemoveSome, if_pos hle]
    · exact fun k e h _ => h
    · exact fun _ => ⟨rfl, rfl⟩
    · exact Or.inl hle
  | case2 c hgt hm =>
    refine ⟨c, [], ?_, hwf, rfl, rfl, rfl, by simp, by simp, by simp, ?_, by simp, ?_, ?_⟩
    · rw [possiblyRemoveSome, if_neg hgt]
      split
      · rfl
      · rename_i k p heq
        rw [hm] at heq
        simp at heq
    · exact fun k e h _ => h
    · exact fun h => absurd h hgt
    · exact Or.inr (heapMin_eq_none.mp hm)
  | case3 c hgt k p hm bytes prio0 hl hsub hrec ih =>
    -- recursive call returned `none`: impossible on a well-formed cache
    exfalso
    have hwf1 : CacheWF { c with
        entries := assocErase c.entries k,
        heap := assocErase c.heap k,
        bytesUsed := c.bytesUsed - bytes } := by
      have hkheap : k ∈ c.heap.map Prod.fst :=
        List.mem_map_of_mem Prod.fst (heapMin_mem hm)
      refine ⟨?_, ?_, ?_, ?_, ?_, ?_⟩
      · exact List.Nodup.sublist (assocErase_map_fst_sublist _ _) hwf.nodupKeys
      · exact List.Nodup.sublist (assocErase_map_fst_sublist _ _) hwf.heapNodup
      · intro kp hkp
        obtain ⟨hmem, hne⟩ := assocErase_mem_ne hwf.heapNodup hkheap hkp
        obtain ⟨b, hb⟩ := hwf.heapSound kp hmem
        exact ⟨b, by rw [assocLookup_erase_ne hne]; exact hb⟩
      · intro k' ws h
        exact hwf.waitersNonempty k' ws (assocLookup_erase_some hwf.nodupKeys h)
      · intro k' b rc h
        exact hwf.refPos k' b rc (assocLookup_erase_some hwf.nodupKeys h)
      · have := sumBytes_erase hl
        have hsum := hwf.sumInv
        simp only [Entry.bytes] at this
        simp only []
        omega
    obtain ⟨c', evs, hps, _⟩ := ih hwf1
    rw [hps] at hrec
    exact absurd hrec (by simp)
  | case4 c hgt k p hm bytes prio0 hl hsub c' evs hrec ih =>
    have hkheap : k ∈ c.heap.map Prod.fst :=
      List.mem_map_of_mem Prod.fst (heapMin_mem hm)
    have hwf1 : CacheWF { c with
        entries := assocErase c.entries k,
        heap := assocErase c.heap k,
        bytesUsed := c.bytesUsed - bytes } := by
      refine ⟨?_, ?_, ?_, ?_, ?_, ?_⟩
      · exact List.Nodup.sublist (assocErase_map_fst_sublist _ _) hwf.nodupKeys
      · exact List.Nodup.sublist (assocErase_map_fst_sublist _ _) hwf.heapNodup
      · intro kp hkp
        obtain ⟨hmem, hne⟩ := assocErase_mem_ne hwf.heapNodup hkheap hkp
        obtain ⟨b, hb⟩ := hwf.heapSound kp hmem
        exact ⟨b, by rw [assocLookup_erase_ne hne]; exact hb⟩
      · intro k' ws h
        exact hwf.waitersNonempty k' ws (assocLookup_erase_some hwf.nodupKeys h)
      · intro k' b rc h
        exact hwf.refPos k' b rc (assocLookup_erase_some hwf.nodupKeys h)
      · have := sumBytes_erase hl
        have hsum := hwf.sumInv
        simp only [Entry.bytes] at this
        simp only []
        omega
    obtain ⟨c'', evs', hps, hwf', hroot, hnp, htgt, hev, hpw, hbytes, hpres,
      hpress, htriv, hfin⟩ := ih hwf1
    rw [hps] at hrec
    injection hrec with hrec
    injection hrec with hrec1 hrec2
    subst hrec1
    subst hrec2
    -- the popped pair's priority matches the entry: heapSound
    have hp : prio0 = p := by
      obtain ⟨b, hb⟩ := hwf.heapSound (k, p) (heapMin_mem hm)
      rw [hl] at hb
      simp only [Option.some.injEq, Entry.inHeap.injEq] at hb
      exact hb.2
    subst hp
    refine ⟨c'', (k, prio0, bytes) :: evs', ?_, hwf', hroot, hnp, htgt,
      ?_, ?_, ?_, ?_, ?_, ?_, hfin⟩
    · rw [possiblyRemoveSome, if_neg hgt]
      split
      · rename_i heq
        rw [hm] at heq
        simp at heq
      · rename_i k2 p2 heq
        rw [hm] at heq
        simp only [Option.some.injEq, Prod.mk.injEq] at heq
        obtain ⟨rfl, rfl⟩ := heq
        simp only [hl, if_pos hsub, hps]
    · intro e he
      rcases List.mem_cons.mp he with rfl | he'
      · exact ⟨heapMin_mem hm, hl⟩
      · obtain ⟨hmem, hlk⟩ := hev e he'
        exact ⟨assocErase_subset hmem,
          assocLookup_erase_some hwf.nodupKeys hlk⟩
    · refine List.Pairwise.cons ?_ hpw
      intro e he'
      obtain ⟨hmem, _⟩ := hev e he'
      exact heapMin_le c.heap (k, prio0) hm _ (assocErase_subset hmem)
    · simp only [List.map_cons, List.sum_cons]
      simp only [] at hbytes
      omega
    · intro k' e h hnotheap
      have hne : k' ≠ k := by
        intro hk
        subst hk
        rw [h] at hl
        injection hl with hl
        subst hl
        simp [Entry.isInHeap] at hnotheap
      exact hpres k' e (by rw [assocLookup_erase_ne hne]; exact h) hnotheap
    · intro i hi
      cases i with
      | zero => simp; omega
      | succ j =>
        simp only [List.length_cons] at hi
        have := hpress j (by omega)
        simp only [List.take_succ_cons, List.map_cons, List.sum_cons]
        simp only [] at this
        omega
    · intro h
      exact absurd h hgt
  | case5 c hgt k p hm bytes prio0 hl hsub =>
    -- `checked_sub` underflow: impossible, the entry's bytes are part of the sum
    exfalso
    have := bytes_le_sumBytes hl
    simp only [Entry.bytes] at this
    have hsum := hwf.sumInv
    omega
  | case6 c hgt k p hm hl =>
    -- popped key not `InHeap`: impossible by heap soundness
    exfalso
    obtain ⟨b, hb⟩ := hwf.heapSound (k, p) (heapMin_mem hm)
    exact hl b p hb

theorem assocLookup_update_some {α β : Type} [DecidableEq α]
    {l : List (α × β)} {k k' : α} {v e old : β}
    (hold : assocLookup l k = some old)
    (h : assocLookup (assocUpdate l k e) k' = some v) :
    (k' = k ∧ v = e) ∨ (k' ≠ k ∧ assocLookup l k' = some v) := by
  by_cases hk : k' = k
  · subst hk
    rw [assocLookup_update_self e hold] at h
    injection h with h
    exact Or.inl ⟨rfl, h.symm⟩
  · rw [assocLookup_update_ne e hk] at h
    exact Or.inr ⟨hk, h⟩

theorem getArtifact_wf {c c' : CacheState} {kind : EntryKind}
    {digest : List Nat} {jid : JobId} {r : GetArtifact}
    (hwf : CacheWF c) (h : getArtifact c kind digest jid = some (c', r)) :
    CacheWF c' := by
  simp only [getArtifact] at h
  split at h
  · -- vacant: a fresh `DownloadingAndExtracting` entry is inserted
    rename_i hlk
    injection h with h
    injection h with h1 h2
    subst h1
    refine ⟨?_, hwf.heapNodup, ?_, ?_, ?_, ?_⟩
    · simp only [List.map_cons, List.nodup_cons]
      exact ⟨assocLookup_eq_none.mp hlk, hwf.nodupKeys⟩
    · intro kp hkp
      obtain ⟨b, hb⟩ := hwf.heapSound kp hkp
      have hne : (⟨kind, digest⟩ : Key) ≠ kp.1 := by
        intro hk
        rw [← hk, hlk] at hb
        exact absurd hb (by simp)
      exact ⟨b, by simp only [assocLookup, if_neg hne]; exact hb⟩
    · intro k' ws hws
      by_cases hk : (⟨kind, digest⟩ : Key) = k'
      · simp only [assocLookup, if_pos hk] at hws
        injection hws with hws
        injection hws with hws
        subst hws
        simp
      · simp only [assocLookup, if_neg hk] at hws
        exact hwf.waitersNonempty k' ws hws
    · intro k' b rc hrc
      by_cases hk : (⟨kind, digest⟩ : Key) = k'
      · simp only [assocLookup, if_pos hk] at hrc
        exact absurd hrc (by simp)
      · simp only [assocLookup, if_neg hk] at hrc
        exact hwf.refPos k' b rc hrc
    · simp only [sumBytes_cons, Entry.bytes]
      have := hwf.sumInv
      omega
  · -- `DownloadingAndExtracting`: append `jid` to the waiters
    rename_i ws hlk
    injection h with h
    injection h with h1 h2
    subst h1
    refine ⟨?_, hwf.heapNodup, ?_, ?_, ?_, ?_⟩
    · rw [assocUpdate_map_fst]; exact hwf.nodupKeys
    · intro kp hkp
      obtain ⟨b, hb⟩ := hwf.heapSound kp hkp
      have hne : kp.1 ≠ (⟨kind, digest⟩ : Key) := by
        intro hk
        rw [hk, hlk] at hb
        exact absurd hb (by simp)
      exact ⟨b, by rw [assocLookup_update_ne _ hne]; exact hb⟩
    · intro k' ws' hws
      rcases assocLookup_update_some hlk hws with ⟨_, hv⟩ | ⟨_, hv⟩
      · injection hv with hv
        subst hv
        simp
      · exact hwf.waitersNonempty k' ws' hv
    · intro k' b rc hrc
      rcases assocLookup_update_some hlk hrc with ⟨_, hv⟩ | ⟨_, hv⟩
      · exact absurd hv (by simp)
      · exact hwf.refPos k' b rc hv
    · have := sumBytes_update (Entry.downloadingAndExtracting (ws ++ [jid])) hlk
      have hsum := hwf.sumInv
      simp only [Entry.bytes] at this
      simp only []
      omega
  · -- `InUse`: increment the reference count
    rename_i bytes rc hlk
    split at h
    · injection h with h
      injection h with h1 h2
      subst h1
      refine ⟨?_, hwf.heapNodup, ?_, ?_, ?_, ?_⟩
      · rw [assocUpdate_map_fst]; exact hwf.nodupKeys
      · intro kp hkp
        obtain ⟨b, hb⟩ := hwf.heapSound kp hkp
        have hne : kp.1 ≠ (⟨kind, digest⟩ : Key) := by
          intro hk
          rw [hk, hlk] at hb
          exact absurd hb (by simp)
        exact ⟨b, by rw [assocLookup_update_ne _ hne]; exact hb⟩
      · intro k' ws' hws
        rcases assocLookup_update_some hlk hws with ⟨_, hv⟩ | ⟨_, hv⟩
        · exact absurd hv (by simp)
        · exact hwf.waitersNonempty k' ws' hv
      · intro k' b rc' hrc
        rcases assocLookup_update_some hlk hrc with ⟨_, hv⟩ | ⟨_, hv⟩
        · simp only [Entry.inUse.injEq] at hv
          omega
        · exact hwf.refPos k' b rc' hv
      · have := sumBytes_update (Entry.inUse bytes (rc + 1)) hlk
        have hsum := hwf.sumInv
        simp only [Entry.bytes] at this
        simp only []
        omega
    · exact absurd h (by simp)
  · -- `InHeap`: remove from the heap, become `InUse` with count 1
    rename_i bytes prio hlk
    injection h with h
    injection h with h1 h2
    subst h1
    refine ⟨?_, ?_, ?_, ?_, ?_, ?_⟩
    · rw [assocUpdate_map_fst]; exact hwf.nodupKeys
    · exact List.Nodup.sublist (assocErase_map_fst_sublist _ _) hwf.heapNodup
    · intro kp hkp
      have hmem := assocErase_subset hkp
      obtain ⟨b, hb⟩ := hwf.heapSound kp hmem
      have hne : kp.1 ≠ (⟨kind, digest⟩ : Key) := by
        intro hk
        have hkeys : (⟨kind, digest⟩ : Key) ∈ c.heap.map Prod.fst :=
          hk ▸ List.mem_map_of_mem Prod.fst hmem
        exact (assocErase_mem_ne hwf.heapNodup hkeys hkp).2 hk
      exact ⟨b, by rw [assocLookup_update_ne _ hne]; exact hb⟩
    · intro k' ws' hws
      rcases assocLookup_update_some hlk hws with ⟨_, hv⟩ | ⟨_, hv⟩
      · exact absurd hv (by simp)
      · exact hwf.waitersNonempty k' ws' hv
    · intro k' b rc' hrc
      rcases assocLookup_update_some hlk hrc with ⟨_, hv⟩ | ⟨_, hv⟩
      · simp only [Entry.inUse.injEq] at hv
        omega
      · exact hwf.refPos k' b rc' hv
    · have := sumBytes_update (Entry.inUse bytes 1) hlk
      have hsum := hwf.sumInv
      simp only [Entry.bytes] at this
      simp only []
      omega

theorem gotArtifactFailure_wf {c c' : CacheState} {kind : EntryKind}
    {digest : List Nat} {ws : List JobId}
    (hwf : CacheWF c) (h : gotArtifactFailure c kind digest = some (c', ws)) :
    CacheWF c' := by
  simp only [gotArtifactFailure] at h
  split at h
  · rename_i jobs hlk
    injection h with h
    injection h with h1 h2
    subst h1
    refine ⟨?_, hwf.heapNodup, ?_, ?_, ?_, ?_⟩
    · exact List.Nodup.sublist (assocErase_map_fst_sublist _ _) hwf.nodupKeys
    · intro kp hkp
      obtain ⟨b, hb⟩ := hwf.heapSound kp hkp
      have hne : kp.1 ≠ (⟨kind, digest⟩ : Key) := by
        intro hk
        rw [hk, hlk] at hb
        exact absurd hb (by simp)
      exact ⟨b, by rw [assocLookup_erase_ne hne]; exact hb⟩
    · intro k' ws' hws
      exact hwf.waitersNonempty k' ws' (assocLookup_erase_some hwf.nodupKeys hws)
    · intro k' b rc hrc
      exact hwf.refPos k' b rc (assocLookup_erase_some hwf.nodupKeys hrc)
    · have := sumBytes_erase hlk
      have hsum := hwf.sumInv
      simp only [Entry.bytes] at this
      simp only []
      omega
  · exact absurd h (by simp)

theorem gotArtifactSuccess_wf {c c' : CacheState} {kind : EntryKind}
    {digest : List Nat} {bytes : Nat} {out : List String × List JobId}
    (hwf : CacheWF c)
    (h : gotArtifactSuccess c kind digest bytes = some (c', out)) :
    CacheWF c' := by
  simp only [gotArtifactSuccess] at h
  split at h
  · rename_i jobs hlk
    split at h
    · exact absurd h (by simp)
    · rename_i hlen
      split at h
      · rename_i hfit
        -- the pre-eviction state is well-formed
        have hwf1 : CacheWF { c with
            entries := assocUpdate c.entries ⟨kind, digest⟩
              (.inUse bytes jobs.length),
            bytesUsed := c.bytesUsed + bytes } := by
          refine ⟨?_, hwf.heapNodup, ?_, ?_, ?_, ?_⟩
          · rw [assocUpdate_map_fst]; exact hwf.nodupKeys
          · intro kp hkp
            obtain ⟨b, hb⟩ := hwf.heapSound kp hkp
            have hne : kp.1 ≠ (⟨kind, digest⟩ : Key) := by
              intro hk
              rw [hk, hlk] at hb
              exact absurd hb (by simp)
            exact ⟨b, by rw [assocLookup_update_ne _ hne]; exact hb⟩
          · intro k' ws' hws
            rcases assocLookup_update_some hlk hws with ⟨_, hv⟩ | ⟨_, hv⟩
            · exact absurd hv (by simp)
            · exact hwf.waitersNonempty k' ws' hv
          · intro k' b rc hrc
            rcases assocLookup_update_some hlk hrc with ⟨_, hv⟩ | ⟨_, hv⟩
            · simp only [Entry.inUse.injEq] at hv
              omega
            · exact hwf.refPos k' b rc hv
          · have := sumBytes_update (Entry.inUse bytes jobs.length) hlk
            have hsum := hwf.sumInv
            simp only [Entry.bytes] at this
            simp only []
            omega
        obtain ⟨c'', evs, hps, hwf', _⟩ := possiblyRemoveSome_props _ hwf1
        rw [hps] at h
        injection h with h
        injection h with h1 h2
        subst h1
        exact hwf'
      · exact absurd h (by simp)
  · exact absurd h (by simp)

theorem decrementRefCount_wf {c c' : CacheState} {kind : EntryKind}
    {digest : List Nat}
    (hwf : CacheWF c) (h : decrementRefCount c kind digest = some c') :
    CacheWF c' := by
  simp only [decrementRefCount] at h
  split at h
  · rename_i bytes rc hlk
    split at h
    · exact absurd h (by simp)
    · rename_i hrc0
      split at h
      · -- the count stays positive
        rename_i hpos
        injection h with h
        subst h
        refine ⟨?_, hwf.heapNodup, ?_, ?_, ?_, ?_⟩
        · rw [assocUpdate_map_fst]; exact hwf.nodupKeys
        · intro kp hkp
          obtain ⟨b, hb⟩ := hwf.heapSound kp hkp
          have hne : kp.1 ≠ (⟨kind, digest⟩ : Key) := by
            intro hk
            rw [hk, hlk] at hb
            exact absurd hb (by simp)
          exact ⟨b, by rw [assocLookup_update_ne _ hne]; exact hb⟩
        · intro k' ws' hws
          rcases assocLookup_update_some hlk hws with ⟨_, hv⟩ | ⟨_, hv⟩
          · exact absurd hv (by simp)
          · exact hwf.waitersNonempty k' ws' hv
        · intro k' b rc' hrc
          rcases assocLookup_update_some hlk hrc with ⟨_, hv⟩ | ⟨_, hv⟩
          · simp only [Entry.inUse.injEq] at hv
            omega
          · exact hwf.refPos k' b rc' hv
        · have := sumBytes_update (Entry.inUse bytes (rc - 1)) hlk
          have hsum := hwf.sumInv
          simp only [Entry.bytes] at this
          simp only []
          omega
      · split at h
        · -- the count reached zero: push the key on the heap, then evict
          rename_i hnp
          have hkeyheap : (⟨kind, digest⟩ : Key) ∉ c.heap.map Prod.fst := by
            intro hk
            obtain ⟨kp, hkp, hfst⟩ := List.mem_map.mp hk
            obtain ⟨b, hb⟩ := hwf.heapSound kp hkp
            rw [hfst, hlk] at hb
            exact absurd hb (by simp)
          have hwf1 : CacheWF { c with
              entries := assocUpdate c.entries ⟨kind, digest⟩
                (.inHeap bytes c.nextPriority),
              heap := c.heap ++ [(⟨kind, digest⟩, c.nextPriority)],
              nextPriority := c.nextPriority + 1 } := by
            refine ⟨?_, ?_, ?_, ?_, ?_, ?_⟩
            · rw [assocUpdate_map_fst]; exact hwf.nodupKeys
            · simp only [List.map_append, List.map_cons, List.map_nil]
              rw [List.nodup_append]
              exact ⟨hwf.heapNodup, List.nodup_singleton _,
                fun a ha hb => by simp at hb; subst hb; exact hkeyheap ha⟩
            · intro kp hkp
              rcases List.mem_append.mp hkp with hmem | hmem
              · obtain ⟨b, hb⟩ := hwf.heapSound kp hmem
                have hne : kp.1 ≠ (⟨kind, digest⟩ : Key) := by
                  intro hk
                  rw [hk, hlk] at hb
                  exact absurd hb (by simp)
                exact ⟨b, by rw [assocLookup_update_ne _ hne]; exact hb⟩
              · simp only [List.mem_singleton] at hmem
                subst hmem
                exact ⟨bytes, assocLookup_update_self _ hlk⟩
            · intro k' ws' hws
              rcases assocLookup_update_some hlk hws with ⟨_, hv⟩ | ⟨_, hv⟩
              · exact absurd hv (by simp)
              · exact hwf.waitersNonempty k' ws' hv
            · intro k' b rc' hrc
              rcases assocLookup_update_some hlk hrc with ⟨_, hv⟩ | ⟨_, hv⟩
              · exact absurd hv (by simp)
              · exact hwf.refPos k' b rc' hv
            · have := sumBytes_update (Entry.inHeap bytes c.nextPriority) hlk
              have hsum := hwf.sumInv
              simp only [Entry.bytes] at this
              simp only []
              omega
          obtain ⟨c'', evs, hps, hwf', _⟩ := possiblyRemoveSome_props _ hwf1
          rw [hps] at h
          injection h with h
          subst h
          exact hwf'
        · exact absurd h (by simp)
  · exact absurd h (by simp)

/-- A cache step preserves the invariants. -/
theorem cacheStep_wf {c c' : CacheState} (h : CacheStep c c') (hwf : CacheWF c) :
    CacheWF c' := by
  cases h with
  | get h => exact getArtifact_wf hwf h
  | failure h => exact gotArtifactFailure_wf hwf h
  | success h => exact gotArtifactSuccess_wf hwf h
  | decrement h => exact decrementRefCount_wf hwf h

theorem cacheNew_wf (root : String) (target : Nat) :
    CacheWF (CacheState.new root target) := by
  refine ⟨?_, ?_, ?_, ?_, ?_, ?_⟩ <;> simp [CacheState.new, sumBytes, assocLookup]

/-- Every reachable cache state is well-formed. -/
theorem cacheReachable_wf {root : String} {target : Nat} {c : CacheState}
    (h : CacheReachable root target c) : CacheWF c := by
  induction h with
  | refl => exact cacheNew_wf root target
  | tail _ hstep ih => exact cacheStep_wf hstep ih

/-- On a well-formed cache, `got_artifact_success` on a
`DownloadingAndExtracting` entry succeeds: the entry becomes `InUse` with
one reference per waiter, and all waiters are returned. -/
theorem gotArtifactSuccess_spec {c : CacheState} {kind : EntryKind}
    {digest : List Nat} {ws : List JobId} (b : Nat) (hwf : CacheWF c)
    (hlk : assocLookup c.entries ⟨kind, digest⟩ =
      some (.downloadingAndExtracting ws))
    (hws : ws ≠ []) (hlen : ws.length ≤ u32Max)
    (hfit : c.bytesUsed + b ≤ u64Max) :
    ∃ c', gotArtifactSuccess c kind digest b =
        some (c', cachePath c.root ⟨kind, digest⟩, ws) ∧
      CacheWF c' ∧ c'.root = c.root ∧
      assocLookup c'.entries ⟨kind, digest⟩ = some (.inUse b ws.length) := by
  have hwf1 : CacheWF { c with
      entries := assocUpdate c.entries ⟨kind, digest⟩ (.inUse b ws.length),
      bytesUsed := c.bytesUsed + b } := by
    refine ⟨?_, hwf.heapNodup, ?_, ?_, ?_, ?_⟩
    · rw [assocUpdate_map_fst]; exact hwf.nodupKeys
    · intro kp hkp
      obtain ⟨b', hb⟩ := hwf.heapSound kp hkp
      have hne : kp.1 ≠ (⟨kind, digest⟩ : Key) := by
        intro hk
        rw [hk, hlk] at hb
        exact absurd hb (by simp)
      exact ⟨b', by rw [assocLookup_update_ne _ hne]; exact hb⟩
    · intro k' ws' hws'
      rcases assocLookup_update_some hlk hws' with ⟨_, hv⟩ | ⟨_, hv⟩
      · exact absurd hv (by simp)
      · exact hwf.waitersNonempty k' ws' hv
    · intro k' b' rc hrc
      rcases assocLookup_update_some hlk hrc with ⟨_, hv⟩ | ⟨_, hv⟩
      · simp only [Entry.inUse.injEq] at hv
        have : ws ≠ [] := hws
        have : 0 < ws.length := List.length_pos.mpr hws
        omega
      · exact hwf.refPos k' b' rc hv
    · have := sumBytes_update (Entry.inUse b ws.length) hlk
      have hsum := hwf.sumInv
      simp only [Entry.bytes] at this
      simp only []
      omega
  obtain ⟨c', evs, hps, hwf', hroot, _, _, _, _, _, hpres, _, _, _⟩ :=
    possiblyRemoveSome_props _ hwf1
  have hlen0 : ¬ (ws.length = 0 ∨ u32Max < ws.length) := by
    have : 0 < ws.length := List.length_pos.mpr hws
    omega
  refine ⟨c', ?_, hwf', hroot, ?_⟩
  · simp only [gotArtifactSuccess, hlk, if_neg hlen0, if_pos hfit, hps]
  · refine hpres ⟨kind, digest⟩ (.inUse b ws.length) ?_ rfl
    exact assocLookup_update_self _ hlk

/-- **C4.** After every cache operation (`get_artifact`,
`got_artifact_success`, `got_artifact_failure`, `decrement_ref_count`) on
a reachable cache state, the sum of `bytes_used` over all `InUse` and
`InHeap` entries (`DownloadingAndExtracting` counting as zero) equals the
tracked `bytes_used` counter. -/
theorem cache_bytes_accounting (root : String) (target : Nat) (c : CacheState)
    (h : CacheReachable root target c) :
    sumBytes c.entries = c.bytesUsed ∧
    (∀ kind digest jid c' r, getArtifact c kind digest jid = some (c', r) →
      sumBytes c'.entries = c'.bytesUsed) ∧
    (∀ kind digest c' ws, gotArtifactFailure c kind digest = some (c', ws) →
      sumBytes c'.entries = c'.bytesUsed) ∧
    (∀ kind digest b c' out, gotArtifactSuccess c kind digest b = some (c', out) →
      sumBytes c'.entries = c'.bytesUsed) ∧
    (∀ kind digest c', decrementRefCount c kind digest = some c' →
      sumBytes c'.entries = c'.bytesUsed) := by
  have hwf := cacheReachable_wf h
  exact ⟨hwf.sumInv,
    fun _ _ _ _ _ h' => (getArtifact_wf hwf h').sumInv,
    fun _ _ _ _ h' => (gotArtifactFailure_wf hwf h').sumInv,
    fun _ _ _ _ _ h' => (gotArtifactSuccess_wf hwf h').sumInv,
    fun _ _ _ h' => (decrementRefCount_wf hwf h').sumInv⟩

/-- Witness for C4 at the freshly created cache. -/
theorem cache_bytes_accounting_witness :
    sumBytes (CacheState.new "cache" 10).entries =
      (CacheState.new "cache" 10).bytesUsed :=
  (cache_bytes_accounting "cache" 10 (CacheState.new "cache" 10)
    Relation.ReflTransGen.refl).1

/-- **C3.** In every reachable cache state, the eviction sweep removes
only `InHeap` entries, popping them in ascending priority while
`total_bytes_used > target` and subtracting each popped entry's bytes; an
entry that is `DownloadingAndExtracting` or `InUse` is never evicted. -/
theorem eviction_sweep_properties (root : String) (target : Nat)
    (c : CacheState) (h : CacheReachable root target c) :
    ∃ c' evs, possiblyRemoveSome c = some (c', evs) ∧
      (∀ e ∈ evs, assocLookup c.entries e.1 = some (.inHeap e.2.2 e.2.1)) ∧
      List.Pairwise (fun a b => a.2.1 ≤ b.2.1) evs ∧
      c'.bytesUsed + (evs.map fun e => e.2.2).sum = c.bytesUsed ∧
      (∀ i < evs.length,
        c.bytesUsedTarget < c.bytesUsed - ((evs.take i).map fun e => e.2.2).sum) ∧
      (∀ k e, assocLookup c.entries k = some e → e.isInHeap = false →
        assocLookup c'.entries k = some e) ∧
      (c.bytesUsed ≤ c.bytesUsedTarget → c' = c ∧ evs = []) ∧
      (c'.bytesUsed ≤ c'.bytesUsedTarget ∨ c'.heap = []) := by
  obtain ⟨c', evs, hps, _, _, _, _, hev, hpw, hbytes, hpres, hpress, htriv, hfin⟩ :=
    possiblyRemoveSome_props c (cacheReachable_wf h)
  exact ⟨c', evs, hps, fun e he => (hev e he).2, hpw, hbytes, hpress, hpres,
    htriv, hfin⟩

/-- Witness for C3 at the freshly created cache: no pressure, no eviction. -/
theorem eviction_sweep_properties_witness :
    possiblyRemoveSome (CacheState.new "cache" 10) =
      some (CacheState.new "cache" 10, []) := by
  obtain ⟨c', evs, hps, _, _, _, _, _, htriv, _⟩ :=
    eviction_sweep_properties "cache" 10 (CacheState.new "cache" 10)
      Relation.ReflTransGen.refl
  obtain ⟨rfl, rfl⟩ := htriv (by simp [CacheState.new])
  exact hps

/-- **C7.** Case analysis of `get_artifact`: a vacant key creates a
`DownloadingAndExtracting` entry with sole waiter `jid` and returns `Get`;
a `DownloadingAndExtracting` entry appends `jid` and returns `Wait`; an
`InUse` entry increments the count and returns `Success`; an `InHeap`
entry leaves the heap, becomes `InUse` with count 1, and returns
`Success`. -/
theorem get_artifact_cases (c : CacheState) (kind : EntryKind)
    (digest : List Nat) (jid : JobId) :
    (assocLookup c.entries ⟨kind, digest⟩ = none →
      getArtifact c kind digest jid =
        some ({ c with entries :=
            (⟨kind, digest⟩, .downloadingAndExtracting [jid]) :: c.entries },
          .get (cachePath c.root ⟨kind, digest⟩))) ∧
    (∀ ws, assocLookup c.entries ⟨kind, digest⟩ =
        some (.downloadingAndExtracting ws) →
      getArtifact c kind digest jid =
        some ({ c with entries := (assocUpdate c.entries ⟨kind, digest⟩
            (.downloadingAndExtracting (ws ++ [jid]))) }, .wait)) ∧
    (∀ b rc, assocLookup c.entries ⟨kind, digest⟩ = some (.inUse b rc) →
      rc + 1 ≤ u32Max →
      getArtifact c kind digest jid =
        some ({ c with entries := (assocUpdate c.entries ⟨kind, digest⟩
            (.inUse b (rc + 1))) },
          .success (cachePath c.root ⟨kind, digest⟩))) ∧
    (∀ b p, assocLookup c.entries ⟨kind, digest⟩ = some (.inHeap b p) →
      getArtifact c kind digest jid =
        some ({ c with
            entries := assocUpdate c.entries ⟨kind, digest⟩ (.inUse b 1),
            heap := assocErase c.heap ⟨kind, digest⟩ },
          .success (cachePath c.root ⟨kind, digest⟩))) := by
  refine ⟨?_, ?_, ?_, ?_⟩
  · intro hlk
    simp only [getArtifact, hlk]
  · intro ws hlk
    simp only [getArtifact, hlk]
  · intro b rc hlk hle
    simp only [getArtifact, hlk, if_pos hle]
  · intro b p hlk
    simp only [getArtifact, hlk]

/-- Witness for C7: `get_artifact` on a vacant key of the fresh cache. -/
theorem get_artifact_cases_witness :
    getArtifact (CacheState.new "r" 10) .blob [1] ⟨0, 0⟩ =
      some ({ CacheState.new "r" 10 with entries :=
          [(⟨.blob, [1]⟩, .downloadingAndExtracting [⟨0, 0⟩])] },
        .get (cachePath "r" ⟨.blob, [1]⟩)) :=
  (get_artifact_cases (CacheState.new "r" 10) .blob [1] ⟨0, 0⟩).1 rfl

/-- **C10.** In every reachable cache state, every
`DownloadingAndExtracting` entry has a non-empty waiter list, so the
`NonZeroU32` conversion of the waiter count inside `got_artifact_success`
succeeds and the call does not panic. -/
theorem downloading_waiters_nonempty (root : String) (target : Nat)
    (c : CacheState) (h : CacheReachable root target c) (kind : EntryKind)
    (digest : List Nat) (ws : List JobId) (b : Nat)
    (hlk : assocLookup c.entries ⟨kind, digest⟩ =
      some (.downloadingAndExtracting ws))
    (hlen : ws.length ≤ u32Max) (hfit : c.bytesUsed + b ≤ u64Max) :
    ws ≠ [] ∧ (gotArtifactSuccess c kind digest b).isSome := by
  have hwf := cacheReachable_wf h
  have hws := hwf.waitersNonempty _ _ hlk
  obtain ⟨c', hsome, _⟩ := gotArtifactSuccess_spec b hwf hlk hws hlen hfit
  exact ⟨hws, by rw [hsome]; rfl⟩

/-- Witness for C10 after one `get_artifact` step from the fresh cache. -/
theorem downloading_waiters_nonempty_witness :
    ([⟨1, 1⟩] : List JobId) ≠ [] ∧
    (gotArtifactSuccess { CacheState.new "r" 10 with entries :=
        [(⟨.blob, [7]⟩, .downloadingAndExtracting [⟨1, 1⟩])] } .blob [7] 5).isSome := by
  have hstep : getArtifact (CacheState.new "r" 10) .blob [7] ⟨1, 1⟩ =
      some ({ CacheState.new "r" 10 with entries :=
          [(⟨.blob, [7]⟩, .downloadingAndExtracting [⟨1, 1⟩])] },
        .get (cachePath "r" ⟨.blob, [7]⟩)) := rfl
  exact downloading_waiters_nonempty "r" 10 _
    (Relation.ReflTransGen.single (CacheStep.get hstep)) .blob [7] [⟨1, 1⟩] 5
    rfl (by norm_num [u32Max]) (by norm_num [u64Max, CacheState.new])

/-! ## The dispatcher's fetcher wrapper and concurrent requests -/

/-- `tracker::FetcherResult`. -/
inductive FetcherResult where
  | got (path : List String)
  | pending
deriving DecidableEq, Repr

/-- `maelstrom_base::ArtifactType`: a raw tar archive or a manifest. -/
inductive ArtifactType where
  | tar
  | manifest
deriving DecidableEq, Repr

/-- A fetch or build started by the dispatcher's `Fetcher` wrapper when
the cache answers `Get`: `ArtifactFetcher::start_artifact_fetch`,
`Deps::build_bottom_fs_layer` or `Deps::build_upper_fs_layer`, with the
arguments the source passes. -/
inductive FetchStart where
  | startArtifactFetch (digest : List Nat) (path : List String)
  | buildBottomFsLayer (digest : List Nat) (path : List String)
      (artifactType : ArtifactType) (artifactPath : List String)
  | buildUpperFsLayer (digest : List Nat) (path : List String)
      (lowerPath upperPath : List String)
deriving DecidableEq, Repr

/-- `Fetcher::fetch_artifact` (dispatcher.rs): ask the cache for a blob;
`Success` is immediately available, `Wait` and `Get` are pending, and on
`Get` the wrapper calls `start_artifact_fetch` — the third component
records that call. -/
def fetchArtifact (c : CacheState) (digest : List Nat) (jid : JobId) :
    Option (CacheState × FetcherResult × Option FetchStart) :=
  match getArtifact c .blob digest jid with
  | none => none
  | some (c', .success path) => some (c', .got path, none)
  | some (c', .wait) => some (c', .pending, none)
  | some (c', .get path) =>
    some (c', .pending, some (.startArtifactFetch digest path))

/-- `Fetcher::fetch_bottom_fs_layer` (dispatcher.rs): same shape for a
bottom layer; on `Get` the wrapper calls `build_bottom_fs_layer` with the
artifact type and the blob's path. -/
def fetchBottomFsLayer (c : CacheState) (digest : List Nat)
    (artifactType : ArtifactType) (artifactPath : List String) (jid : JobId) :
    Option (CacheState × FetcherResult × Option FetchStart) :=
  match getArtifact c .bottomFsLayer digest jid with
  | none => none
  | some (c', .success path) => some (c', .got path, none)
  | some (c', .wait) => some (c', .pending, none)
  | some (c', .get path) =>
    some (c', .pending,
      some (.buildBottomFsLayer digest path artifactType artifactPath))

/-- `Fetcher::fetch_upper_fs_layer` (dispatcher.rs): same shape for an
upper layer; on `Get` the wrapper calls `build_upper_fs_layer` with the
lower and upper layer paths. -/
def fetchUpperFsLayer (c : CacheState) (digest : List Nat)
    (lowerPath upperPath : List String) (jid : JobId) :
    Option (CacheState × FetcherResult × Option FetchStart) :=
  match getArtifact c .upperFsLayer digest jid with
  | none => none
  | some (c', .success path) => some (c', .got path, none)
  | some (c', .wait) => some (c', .pending, none)
  | some (c', .get path) =>
    some (c', .pending, some (.buildUpperFsLayer digest path lowerPath upperPath))

/-- Scenario selector: the `Fetcher` method the layer tracker uses for a
given entry kind (`fetch_artifact` for `Blob`, `fetch_bottom_fs_layer`
for `BottomFsLayer`, `fetch_upper_fs_layer` for `UpperFsLayer`). -/
def fetchForKind (kind : EntryKind) (c : CacheState) (digest : List Nat)
    (artifactType : ArtifactType) (artifactPath lowerPath upperPath : List String)
    (jid : JobId) : Option (CacheState × FetcherResult × Option FetchStart) :=
  match kind with
  | .blob => fetchArtifact c digest jid
  | .bottomFsLayer => fetchBottomFsLayer c digest artifactType artifactPath jid
  | .upperFsLayer => fetchUpperFsLayer c digest lowerPath upperPath jid

/-- The start call issued for a vacant entry of each kind. -/
def startForKind (kind : EntryKind) (digest : List Nat) (path : List String)
    (artifactType : ArtifactType) (artifactPath lowerPath upperPath : List String) :
    FetchStart :=
  match kind with
  | .blob => .startArtifactFetch digest path
  | .bottomFsLayer => .buildBottomFsLayer digest path artifactType artifactPath
  | .upperFsLayer => .buildUpperFsLayer digest path lowerPath upperPath

/-- Scenario driver (spec §8, S2): a sequence of `get_artifact` calls for
the same key by successive jobs, collecting the results. -/
def requestAll (c : CacheState) (kind : EntryKind) (digest : List Nat) :
    List JobId → Option (CacheState × List GetArtifact)
  | [] => some (c, [])
  | j :: js =>
    match getArtifact c kind digest j with
    | none => none
    | some (c₁, r) =>
      match requestAll c₁ kind digest js with
      | none => none
      | some (c₂, rs) => some (c₂, r :: rs)

/-- Requests against an in-flight (`DownloadingAndExtracting`) entry all
return `Wait` and accumulate as waiters. -/
theorem requestAll_waiting (kind : EntryKind) (digest : List Nat) :
    ∀ (js : List JobId) (c : CacheState) (ws : List JobId), CacheWF c →
      assocLookup c.entries ⟨kind, digest⟩ =
        some (.downloadingAndExtracting ws) →
      ∃ c', requestAll c kind digest js =
          some (c', List.replicate js.length .wait) ∧
        CacheWF c' ∧
        assocLookup c'.entries ⟨kind, digest⟩ =
          some (.downloadingAndExtracting (ws ++ js)) ∧
        c'.root = c.root ∧ c'.bytesUsed = c.bytesUsed
  | [], c, ws, hwf, hlk => ⟨c, rfl, hwf, by simp [hlk], rfl, rfl⟩
  | j :: js, c, ws, hwf, hlk => by
    have hstep : getArtifact c kind digest j =
        some ({ c with entries := (assocUpdate c.entries ⟨kind, digest⟩
            (.downloadingAndExtracting (ws ++ [j]))) }, .wait) := by
      simp only [getArtifact, hlk]
    have hwf1 := getArtifact_wf hwf hstep
    have hlk1 : assocLookup (assocUpdate c.entries ⟨kind, digest⟩
          (.downloadingAndExtracting (ws ++ [j]))) ⟨kind, digest⟩ =
        some (.downloadingAndExtracting (ws ++ [j])) :=
      assocLookup_update_self _ hlk
    obtain ⟨c', hreq, hwf', hlk', hroot, hbytes⟩ :=
      requestAll_waiting kind digest js _ (ws ++ [j]) hwf1 hlk1
    refine ⟨c', ?_, hwf', ?_, hroot, hbytes⟩
    · simp only [requestAll, hstep, hreq, List.length_cons,
        List.replicate_succ]
    · simpa [List.append_assoc] using hlk'

/-- **C6.** For every `(kind, digest)`, N ≥ 1 jobs requesting it while no
entry exists: the first request returns `Get` and its `Fetcher` wrapper
issues exactly one `start_artifact_fetch` / `build_bottom_fs_layer` /
`build_upper_fs_layer` call (by kind); every later request returns `Wait`
and issues none; and on success `got_artifact_success` returns all N
waiting jobs and sets the entry to `InUse` with `ref_count = N`. -/
theorem concurrent_waiters (c : CacheState) (kind : EntryKind)
    (digest : List Nat) (j : JobId) (js : List JobId) (b : Nat)
    (artifactType : ArtifactType)
    (artifactPath lowerPath upperPath : List String)
    (hwf : CacheWF c)
    (hnone : assocLookup c.entries ⟨kind, digest⟩ = none)
    (hlen : (j :: js).length ≤ u32Max)
    (hfit : c.bytesUsed + b ≤ u64Max) :
    ∃ c₁ c' c'',
      fetchForKind kind c digest artifactType artifactPath lowerPath
          upperPath j =
        some (c₁, .pending, some (startForKind kind digest
          (cachePath c.root ⟨kind, digest⟩) artifactType artifactPath
          lowerPath upperPath)) ∧
      requestAll c kind digest (j :: js) =
        some (c', .get (cachePath c.root ⟨kind, digest⟩) ::
          List.replicate js.length .wait) ∧
      assocLookup c'.entries ⟨kind, digest⟩ =
        some (.downloadingAndExtracting (j :: js)) ∧
      gotArtifactSuccess c' kind digest b =
        some (c'', cachePath c.root ⟨kind, digest⟩, j :: js) ∧
      assocLookup c''.entries ⟨kind, digest⟩ =
        some (.inUse b (j :: js).length) ∧
      (∀ c₂ ws j', assocLookup c₂.entries ⟨kind, digest⟩ =
          some (.downloadingAndExtracting ws) →
        ∃ c₃, fetchForKind kind c₂ digest artifactType artifactPath
          lowerPath upperPath j' = some (c₃, .pending, none)) := by
  have hget : getArtifact c kind digest j =
      some ({ c with entries :=
          (⟨kind, digest⟩, .downloadingAndExtracting [j]) :: c.entries },
        .get (cachePath c.root ⟨kind, digest⟩)) := by
    simp only [getArtifact, hnone]
  have hwf1 := getArtifact_wf hwf hget
  have hlk1 : assocLookup ((⟨kind, digest⟩,
        Entry.downloadingAndExtracting [j]) :: c.entries) ⟨kind, digest⟩ =
      some (.downloadingAndExtracting [j]) := by
    simp [assocLookup]
  obtain ⟨c', hreq, hwf', hlk', hroot, hbytes⟩ :=
    requestAll_waiting kind digest js _ [j] hwf1 hlk1
  have hlkN : assocLookup c'.entries ⟨kind, digest⟩ =
      some (.downloadingAndExtracting (j :: js)) := by
    simpa using hlk'
  obtain ⟨c'', hsucc, hwf'', hroot'', hlkU⟩ :=
    gotArtifactSuccess_spec b hwf' hlkN (by simp)
      (by simpa using hlen) (by simpa [hbytes] using hfit)
  refine ⟨{ c with entries :=
      (⟨kind, digest⟩, .downloadingAndExtracting [j]) :: c.entries },
    c', c'', ?_, ?_, hlkN, ?_, ?_, ?_⟩
  · cases kind with
    | blob => simp only [fetchForKind, fetchArtifact, startForKind, hget]
    | bottomFsLayer =>
      simp only [fetchForKind, fetchBottomFsLayer, startForKind, hget]
    | upperFsLayer =>
      simp only [fetchForKind, fetchUpperFsLayer, startForKind, hget]
  · simp only [requestAll, hget, hreq]
  · rw [hsucc, hroot]
  · simpa using hlkU
  · intro c₂ ws j' hlk₂
    have hstep : getArtifact c₂ kind digest j' =
        some ({ c₂ with entries := (assocUpdate c₂.entries ⟨kind, digest⟩
            (.downloadingAndExtracting (ws ++ [j']))) }, .wait) := by
      simp only [getArtifact, hlk₂]
    refine ⟨{ c₂ with entries := (assocUpdate c₂.entries ⟨kind, digest⟩
        (.downloadingAndExtracting (ws ++ [j']))) }, ?_⟩
    cases kind with
    | blob => simp only [fetchForKind, fetchArtifact, hstep]
    | bottomFsLayer => simp only [fetchForKind, fetchBottomFsLayer, hstep]
    | upperFsLayer => simp only [fetchForKind, fetchUpperFsLayer, hstep]

/-- Witness for C6: three jobs request bottom layer 42 concurrently (spec
S2's shape, at a builder kind): one `build_bottom_fs_layer` start, two
waits, `ref_count` 3 on success. -/
theorem concurrent_waiters_witness :
    ∃ c₁ c' c'',
      fetchForKind .bottomFsLayer (CacheState.new "r" 1000) [42] .tar ["a"]
          [] [] ⟨1, 1⟩ =
        some (c₁, .pending, some (.buildBottomFsLayer [42]
          (cachePath (CacheState.new "r" 1000).root ⟨.bottomFsLayer, [42]⟩)
          .tar ["a"])) ∧
      requestAll (CacheState.new "r" 1000) .bottomFsLayer [42]
          [⟨1, 1⟩, ⟨2, 2⟩, ⟨3, 3⟩] =
        some (c', .get (cachePath (CacheState.new "r" 1000).root
            ⟨.bottomFsLayer, [42]⟩) :: List.replicate 2 .wait) ∧
      assocLookup c'.entries ⟨.bottomFsLayer, [42]⟩ =
        some (.downloadingAndExtracting [⟨1, 1⟩, ⟨2, 2⟩, ⟨3, 3⟩]) ∧
      gotArtifactSuccess c' .bottomFsLayer [42] 100 =
        some (c'', cachePath (CacheState.new "r" 1000).root
          ⟨.bottomFsLayer, [42]⟩, [⟨1, 1⟩, ⟨2, 2⟩, ⟨3, 3⟩]) ∧
      assocLookup c''.entries ⟨.bottomFsLayer, [42]⟩ =
        some (.inUse 100 3) ∧
      (∀ c₂ ws j', assocLookup c₂.entries ⟨.bottomFsLayer, [42]⟩ =
          some (.downloadingAndExtracting ws) →
        ∃ c₃, fetchForKind .bottomFsLayer c₂ [42] .tar ["a"] [] [] j' =
          some (c₃, .pending, none)) :=
  concurrent_waiters (CacheState.new "r" 1000) .bottomFsLayer [42] ⟨1, 1⟩
    [⟨2, 2⟩, ⟨3, 3⟩] 100 .tar ["a"] [] [] (cacheNew_wf "r" 1000) rfl
    (by norm_num [u32Max]) (by norm_num [u64Max, CacheState.new])

/-! ## Worker dispatcher (maelstrom-worker/src/dispatcher.rs)

The dispatcher owns three collections of jobs (`awaiting_layers`,
`available`, `executing`) and reacts to messages.  Its side effects —
messages to the broker, cache reference decrements, job and timer starts —
are recorded as an effect trace, mirroring the message log used by the
dispatcher's own tests.  Durations are modelled as `Nat`. -/

/-- Modelled from the spec: `maelstrom_util::duration::cmp`, used by
`impl Ord for AvailableJob`, is not among the sources here.  The spec pins
the order: `available` is a max-priority queue "ordered by
`estimated_duration` (longest processing time first; absence of estimate
sorts last)", and scenario S5 (as does the source test
`jobs_are_executed_in_lpt_order`) shows a job with no estimate popping
before jobs with estimates — so a missing duration compares greater than
any present one. -/
def cmpDuration : Option Nat → Option Nat → Ordering
  | none, none => .eq
  | some _, none => .lt
  | none, some _ => .gt
  | some l, some r => compare l r

/-- The `JobSpec` fields the dispatcher inspects: `timeout` and
`estimated_duration`.  The remaining fields (program, arguments, layers,
mounts, …) are never read by the dispatcher and are collapsed into an
opaque `payload`. -/
structure JobSpec where
  timeout : Option Nat
  estimatedDuration : Option Nat
  payload : Nat
deriving DecidableEq, Repr

/-- `AvailableJob`: a job whose layers are ready, queued for a slot. -/
structure AvailableJob where
  jid : JobId
  spec : JobSpec
  path : List String
  cacheKeys : List Key
deriving DecidableEq, Repr

/-- `impl Ord for AvailableJob`: compare the estimated durations with
`duration::cmp`. -/
def AvailableJob.cmp (a b : AvailableJob) : Ordering :=
  cmpDuration a.spec.estimatedDuration b.spec.estimatedDuration

/-- `BinaryHeap::pop`: remove and return a maximal element with respect to
`Ord for AvailableJob`.  Tie-breaking among equal elements is unspecified
in the source; the model keeps the earliest of equals. -/
def popMax : List AvailableJob → Option (AvailableJob × List AvailableJob)
  | [] => none
  | a :: rest =>
    match popMax rest with
    | none => some (a, [])
    | some (m, rest') =>
      if a.cmp m = .lt then some (m, a :: rest') else some (a, rest)

/-- `ExecutingJobState`.  The job and timer handles of `Nominal` are
opaque capabilities whose drop kills the job or cancels the timer; only
the state tag is observable. -/
inductive ExecutingJobState where
  | nominal
  | canceled
  | timedOut
deriving DecidableEq, Repr

/-- `ExecutingJob`: state plus the cache keys to release on termination. -/
structure ExecutingJob where
  state : ExecutingJobState
  cacheKeys : List Key
deriving DecidableEq, Repr

/-- `AwaitingLayersJob`.  The layer tracker itself lives in
`dispatcher/tracker.rs`, which is not among the sources here; on this
path the dispatcher only ever asks it for its acquired cache keys
(`into_cache_keys`), which the model stores directly. -/
structure AwaitingLayersJob where
  spec : JobSpec
  trackerCacheKeys : List Key
deriving DecidableEq, Repr

/-- `maelstrom_base::JobEffects`: captured stdout, stderr and duration,
opaque to the dispatcher. -/
structure JobEffects where
  stdout : Nat
  stderr : Nat
  duration : Nat
deriving DecidableEq, Repr

/-- `maelstrom_base::JobCompleted`: exit status plus effects. -/
structure JobCompletedMsg where
  status : Nat
  effects : JobEffects
deriving DecidableEq, Repr

/-- `maelstrom_base::JobError`: execution vs system errors. -/
inductive JobError where
  | execution (msg : String)
  | system (msg : String)
deriving DecidableEq, Repr

/-- `JobResult<T, String>`, i.e. `Result<T, JobError>`. -/
inductive JobResult (α : Type) where
  | ok (v : α)
  | err (e : JobError)
deriving DecidableEq, Repr

/-- `Result::map`: apply `f` to the success value only. -/
def JobResult.map {α β : Type} (f : α → β) : JobResult α → JobResult β
  | .ok v => .ok (f v)
  | .err e => .err e

/-- `maelstrom_base::JobOutcome`. -/
inductive JobOutcome where
  | completed (c : JobCompletedMsg)
  | timedOut (effects : JobEffects)
deriving DecidableEq, Repr

/-- `WorkerToBroker`: a per-job outcome message. -/
structure WorkerToBroker where
  jid : JobId
  result : JobResult JobOutcome
deriving DecidableEq, Repr

/-- Observable side effects of a dispatcher handler, in program order. -/
inductive Effect where
  | sendMessageToBroker (msg : WorkerToBroker)
  | cacheDecrementRefCount (key : Key)
  | startTimer (jid : JobId) (duration : Nat)
  | startJob (jid : JobId)
deriving DecidableEq, Repr

/-- The dispatcher's mutable state. -/
structure DispatcherState where
  slots : Nat
  awaitingLayers : List (JobId × AwaitingLayersJob)
  available : List AvailableJob
  executing : List (JobId × ExecutingJob)
deriving DecidableEq, Repr

/-- `Dispatcher::new`. -/
def DispatcherState.new (slots : Nat) : DispatcherState :=
  { slots := slots, awaitingLayers := [], available := [], executing := [] }

/-- `Dispatcher::possibly_start_job`: start at most one job if a slot is
free and a job is queued — start its timer if it has a timeout, start the
job, insert into `executing` in `Nominal` state. -/
def possiblyStartJob (s : DispatcherState) : DispatcherState × List Effect :=
  if s.slots ≤ s.executing.length then (s, [])
  else
    match popMax s.available with
    | none => (s, [])
    | some (job, rest) =>
      ({ s with
          available := rest,
          executing := s.executing ++ [(job.jid, ⟨.nominal, job.cacheKeys⟩)] },
        (match job.spec.timeout with
          | none => []
          | some t => [Effect.startTimer job.jid t]) ++ [Effect.startJob job.jid])

/-- `Dispatcher::make_job_available`: push onto `available`, then try to
start a job. -/
def makeJobAvailable (s : DispatcherState) (jid : JobId) (spec : JobSpec)
    (path : List String) (cacheKeys : List Key) : DispatcherState × List Effect :=
  possiblyStartJob { s with available :=
    ⟨jid, spec, path, cacheKeys⟩ :: s.available }

/-- `Dispatcher::receive_cancel_job`: remove from `awaiting_layers`
releasing the tracker's keys; else, if executing, set the state to
`Canceled`; else drop it from the `available` queue releasing its keys. -/
def receiveCancelJob (s : DispatcherState) (jid : JobId) :
    DispatcherState × List Effect :=
  match assocLookup s.awaitingLayers jid with
  | some entry =>
    ({ s with awaitingLayers := assocErase s.awaitingLayers jid },
      entry.trackerCacheKeys.map Effect.cacheDecrementRefCount)
  | none =>
    match assocLookup s.executing jid with
    | some ej =>
      ({ s with executing := assocUpdate s.executing jid ⟨.canceled, ej.cacheKeys⟩ },
        [])
    | none =>
      ({ s with available := s.available.filter (fun a => ¬ a.jid = jid) },
        ((s.available.filter (fun a => a.jid = jid)).flatMap
          (fun a => a.cacheKeys)).map Effect.cacheDecrementRefCount)

/-- The broker message(s) `receive_job_completed` sends for a given
executing-job state. -/
def brokerSendsFor (state : ExecutingJobState) (jid : JobId)
    (result : JobResult JobCompletedMsg) : List Effect :=
  match state with
  | .nominal =>
    [.sendMessageToBroker ⟨jid, result.map JobOutcome.completed⟩]
  | .canceled => []
  | .timedOut =>
    [.sendMessageToBroker ⟨jid, result.map (fun c => .timedOut c.effects)⟩]

/-- `Dispatcher::receive_job_completed`: the job must be executing (else
the source panics); remove it, send the state-dependent outcome, release
each cache key, and run admission again. -/
def receiveJobCompleted (s : DispatcherState) (jid : JobId)
    (result : JobResult JobCompletedMsg) :
    Option (DispatcherState × List Effect) :=
  match assocLookup s.executing jid with
  | none => none
  | some ej =>
    let s₁ : DispatcherState := { s with executing := assocErase s.executing jid }
    let adm := possiblyStartJob s₁
    some (adm.1,
      brokerSendsFor ej.state jid result
        ++ ej.cacheKeys.map Effect.cacheDecrementRefCount
        ++ adm.2)

/-- `Dispatcher::receive_job_timer`: unknown job is ignored; `Nominal`
becomes `TimedOut`; a second expiration panics; `Canceled` is ignored. -/
def receiveJobTimer (s : DispatcherState) (jid : JobId) :
    Option (DispatcherState × List Effect) :=
  match assocLookup s.executing jid with
  | none => some (s, [])
  | some ej =>
    match ej.state with
    | .nominal =>
      some ({ s with executing :=
          (assocUpdate s.executing jid ⟨.timedOut, ej.cacheKeys⟩) }, [])
    | .timedOut => none
    | .canceled => some (s, [])

/-- Outcome of `LayerTracker::new` for an enqueued job, abstracted: the
tracker (dispatcher/tracker.rs, not among the sources here) either
completes immediately with a mount path and the job's cache keys, or
stays pending having acquired some keys so far; the dispatcher's behavior
is quantified over both. -/
inductive TrackerOutcome where
  | complete (path : List String) (cacheKeys : List Key)
  | pending (cacheKeys : List Key)

/-- `Dispatcher::receive_enqueue_job`: a complete tracker makes the job
available at once; otherwise it is recorded in `awaiting_layers`. -/
def receiveEnqueueJob (s : DispatcherState) (jid : JobId) (spec : JobSpec)
    (t : TrackerOutcome) : DispatcherState × List Effect :=
  match t with
  | .complete path keys => makeJobAvailable s jid spec path keys
  | .pending keys =>
    ({ s with awaitingLayers := (jid, ⟨spec, keys⟩) :: s.awaitingLayers }, [])

/-- One iteration of the fold in `receive_shutdown`: cancel one job,
accumulating effects. -/
def cancelFold (acc : DispatcherState × List Effect) (jid : JobId) :
    DispatcherState × List Effect :=
  ((receiveCancelJob acc.1 jid).1, acc.2 ++ (receiveCancelJob acc.1 jid).2)

/-- `Dispatcher::receive_shutdown`: close the broker sender (not part of
the modelled effect trace), drop `awaiting_layers` and `available`, and
cancel every executing job. -/
def receiveShutdown (s : DispatcherState) : DispatcherState × List Effect :=
  (({ s with awaitingLayers := [], available := [] } :
      DispatcherState).executing.map Prod.fst).foldl cancelFold
    ({ s with awaitingLayers := [], available := [] }, [])

/-- One dispatcher transition: a handler applied when it does not panic.
Layer-build completions (`cache_fill_success` / `cache_fill_failure` /
`advance_job`) act on the job collections one waiter at a time; the
`advance*` constructors cover those per-waiter updates with the tracker's
progress quantified. -/
inductive DStep : DispatcherState → DispatcherState → Prop where
  | enqueue {s} (jid : JobId) (spec : JobSpec) (t : TrackerOutcome) :
      DStep s (receiveEnqueueJob s jid spec t).1
  | cancel {s} (jid : JobId) :
      DStep s (receiveCancelJob s jid).1
  | completed {s s' tr} (jid : JobId) (result : JobResult JobCompletedMsg) :
      receiveJobCompleted s jid result = some (s', tr) → DStep s s'
  | timer {s s' tr} (jid : JobId) :
      receiveJobTimer s jid = some (s', tr) → DStep s s'
  | jobFailure {s} (jid : JobId) :
      DStep s { s with awaitingLayers := assocErase s.awaitingLayers jid }
  | advancePending {s} (jid : JobId) (entry : AwaitingLayersJob)
      (keys : List Key) :
      assocLookup s.awaitingLayers jid = some entry →
      DStep s { s with awaitingLayers :=
          (assocUpdate s.awaitingLayers jid ⟨entry.spec, keys⟩) }
  | advanceComplete {s} (jid : JobId) (entry : AwaitingLayersJob)
      (path : List String) (keys : List Key) :
      assocLookup s.awaitingLayers jid = some entry →
      DStep s (makeJobAvailable
        { s with awaitingLayers := assocErase s.awaitingLayers jid }
        jid entry.spec path keys).1
  | shutdown {s} :
      DStep s (receiveShutdown s).1

/-- Dispatcher states reachable from `Dispatcher::new`. -/
def DReachable (slots : Nat) (s : DispatcherState) : Prop :=
  Relation.ReflTransGen DStep (DispatcherState.new slots) s

theorem assocUpdate_length {α β : Type} [DecidableEq α]
    (l : List (α × β)) (k : α) (v : β) :
    (assocUpdate l k v).length = l.length := by
  have h := congrArg List.length (assocUpdate_map_fst l k v)
  simpa using h

theorem assocErase_length_le {α β : Type} [DecidableEq α]
    (l : List (α × β)) (k : α) :
    (assocErase l k).length ≤ l.length := by
  have h := List.Sublist.length_le (assocErase_map_fst_sublist l k)
  simpa using h

theorem possiblyStartJob_le {s : DispatcherState}
    (h : s.executing.length ≤ s.slots) :
    (possiblyStartJob s).1.executing.length ≤ (possiblyStartJob s).1.slots := by
  unfold possiblyStartJob
  split
  · exact h
  · rename_i hlt
    cases hpop : popMax s.available with
    | none => exact h
    | some jr =>
      obtain ⟨job, rest⟩ := jr
      simp only [List.length_append, List.length_cons, List.length_nil]
      omega

theorem possiblyStartJob_slots (s : DispatcherState) :
    (possiblyStartJob s).1.slots = s.slots := by
  unfold possiblyStartJob
  split
  · rfl
  · cases hpop : popMax s.available with
    | none => rfl
    | some jr => obtain ⟨job, rest⟩ := jr; rfl

theorem receiveCancelJob_executing (s : DispatcherState) (jid : JobId) :
    (receiveCancelJob s jid).1.executing.length = s.executing.length ∧
    (receiveCancelJob s jid).1.slots = s.slots := by
  unfold receiveCancelJob
  cases assocLookup s.awaitingLayers jid with
  | some entry => exact ⟨rfl, rfl⟩
  | none =>
    cases assocLookup s.executing jid with
    | some ej => exact ⟨assocUpdate_length _ _ _, rfl⟩
    | none => exact ⟨rfl, rfl⟩

theorem cancelFold_invariant (jids : List JobId)
    (acc : DispatcherState × List Effect) :
    (jids.foldl cancelFold acc).1.executing.length = acc.1.executing.length ∧
    (jids.foldl cancelFold acc).1.slots = acc.1.slots := by
  induction jids generalizing acc with
  | nil => exact ⟨rfl, rfl⟩
  | cons j rest ih =>
    simp only [List.foldl_cons]
    have h := receiveCancelJob_executing acc.1 j
    have hrec := ih (cancelFold acc j)
    simp only [cancelFold] at hrec ⊢
    omega

/-- `possibly_start_job` is the only place a job enters `executing`, and
it is guarded by the slot count, so every step keeps `|executing| ≤
slots`. -/
theorem dstep_executing_le {s s' : DispatcherState} (h : DStep s s')
    (hinv : s.executing.length ≤ s.slots) :
    s'.executing.length ≤ s'.slots := by
  cases h with
  | enqueue jid spec t =>
    cases t with
    | complete path keys =>
      exact possiblyStartJob_le hinv
    | pending keys => exact hinv
  | cancel jid =>
    have h := receiveCancelJob_executing s jid
    omega
  | completed jid result hc =>
    simp only [receiveJobCompleted] at hc
    cases hlk : assocLookup s.executing jid with
    | none => rw [hlk] at hc; exact absurd hc (by simp)
    | some ej =>
      rw [hlk] at hc
      injection hc with hc
      injection hc with hc1 hc2
      subst hc1
      refine possiblyStartJob_le ?_
      have hlen := assocErase_length_le s.executing jid
      simpa using le_trans hlen hinv
  | timer jid hc =>
    cases hlk : assocLookup s.executing jid with
    | none =>
      simp only [receiveJobTimer, hlk] at hc
      injection hc with hc
      injection hc with hc1 hc2
      subst hc1
      exact hinv
    | some ej =>
      obtain ⟨st, keys⟩ := ej
      cases st with
      | nominal =>
        simp only [receiveJobTimer, hlk] at hc
        injection hc with hc
        injection hc with hc1 hc2
        subst hc1
        have := assocUpdate_length s.executing jid
          (⟨.timedOut, keys⟩ : ExecutingJob)
        simpa [this] using hinv
      | timedOut =>
        simp only [receiveJobTimer, hlk] at hc
        exact absurd hc (by simp)
      | canceled =>
        simp only [receiveJobTimer, hlk] at hc
        injection hc with hc
        injection hc with hc1 hc2
        subst hc1
        exact hinv
  | jobFailure jid => exact hinv
  | advancePending jid entry keys hlk => exact hinv
  | advanceComplete jid entry path keys hlk =>
    exact possiblyStartJob_le hinv
  | shutdown =>
    have h := cancelFold_invariant
      (({ s with awaitingLayers := [], available := [] } :
        DispatcherState).executing.map Prod.fst)
      ({ s with awaitingLayers := [], available := [] }, [])
    simp only [receiveShutdown]
    rw [h.1, h.2]
    simpa using hinv

/-- **C5.** In every reachable dispatcher state the number of executing
jobs is at most `slots`, and an available job is started only when the
number of executing jobs is strictly below `slots`: at `|executing| ≥
slots`, `possibly_start_job` changes nothing and starts nothing. -/
theorem executing_le_slots (slots : Nat) (s : DispatcherState)
    (h : DReachable slots s) :
    s.executing.length ≤ s.slots ∧
    (s.slots ≤ s.executing.length → possiblyStartJob s = (s, [])) := by
  constructor
  · induction h with
    | refl => simp [DispatcherState.new]
    | tail _ hstep ih => exact dstep_executing_le hstep ih
  · intro hfull
    unfold possiblyStartJob
    rw [if_pos hfull]

/-- Witness for C5 at the fresh dispatcher. -/
theorem executing_le_slots_witness :
    (DispatcherState.new 2).executing.length ≤ (DispatcherState.new 2).slots :=
  (executing_le_slots 2 (DispatcherState.new 2) Relation.ReflTransGen.refl).1

theorem assocUpdate_self_eq {α β : Type} [DecidableEq α]
    {l : List (α × β)} {k : α} {v : β}
    (h : assocLookup l k = some v) : assocUpdate l k v = l := by
  induction l with
  | nil => rfl
  | cons kv rest ih =>
    obtain ⟨k₀, v₀⟩ := kv
    by_cases hk : k₀ = k
    · subst hk
      simp only [assocLookup, if_pos rfl] at h
      injection h with h
      subst h
      simp [assocUpdate]
    · simp only [assocLookup, if_neg hk] at h
      simp [assocUpdate, hk, ih h]

theorem possiblyStartJob_no_sends (s : DispatcherState) :
    ∀ e ∈ (possiblyStartJob s).2, ∀ m, e ≠ .sendMessageToBroker m := by
  unfold possiblyStartJob
  split
  · simp
  · cases hpop : popMax s.available with
    | none => simp
    | some jr =>
      obtain ⟨job, rest⟩ := jr
      intro e he m
      cases ht : job.spec.timeout with
      | none =>
        simp [ht] at he
        subst he
        simp
      | some t =>
        simp [ht] at he
        rcases he with rfl | rfl <;> simp

theorem possiblyStartJob_no_decs (s : DispatcherState) :
    ∀ e ∈ (possiblyStartJob s).2, ∀ k, e ≠ .cacheDecrementRefCount k := by
  unfold possiblyStartJob
  split
  · simp
  · cases hpop : popMax s.available with
    | none => simp
    | some jr =>
      obtain ⟨job, rest⟩ := jr
      intro e he k
      cases ht : job.spec.timeout with
      | none =>
        simp [ht] at he
        subst he
        simp
      | some t =>
        simp [ht] at he
        rcases he with rfl | rfl <;> simp

/-- Counterexample to C1 as stated: with job (1,1) executing in state
`TimedOut`, `CancelJob(1,1)` is not a no-op — the dispatcher state
changes (the executing state flips to `Canceled`, so the eventual
`JobCompleted` will not be reported as `TimedOut`). -/
theorem cancel_timed_out_changes_state :
    (receiveCancelJob ⟨1, [], [], [(⟨1, 1⟩, ⟨.timedOut, []⟩)]⟩ ⟨1, 1⟩).1 ≠
      ⟨1, [], [], [(⟨1, 1⟩, ⟨.timedOut, []⟩)]⟩ := by decide

/-- **C1 (amended).** `CancelJob(jid)` for an executing job `jid` (not in
`awaiting_layers`): if its state is already `Canceled`, the dispatcher
state is left unchanged and nothing is emitted; if its state is
`TimedOut`, the handler sets the state to `Canceled` — so the eventual
`JobCompleted` sends nothing to the broker (matching the source test
`cancel_timed_out`). -/
theorem cancel_executing_behavior (s : DispatcherState) (jid : JobId)
    (ej : ExecutingJob)
    (hnaw : assocLookup s.awaitingLayers jid = none)
    (hex : assocLookup s.executing jid = some ej) :
    (ej.state = .canceled → receiveCancelJob s jid = (s, [])) ∧
    (ej.state = .timedOut →
      receiveCancelJob s jid =
        ({ s with executing :=
            (assocUpdate s.executing jid ⟨.canceled, ej.cacheKeys⟩) }, []) ∧
      ∀ result s' tr,
        receiveJobCompleted (receiveCancelJob s jid).1 jid result =
          some (s', tr) →
        ∀ e ∈ tr, ∀ m, e ≠ .sendMessageToBroker m) := by
  constructor
  · intro hca
    obtain ⟨st, keys⟩ := ej
    simp only at hca
    subst hca
    simp only [receiveCancelJob, hnaw, hex]
    rw [assocUpdate_self_eq hex]
  · intro hto
    have hcancel : receiveCancelJob s jid =
        ({ s with executing :=
          (assocUpdate s.executing jid ⟨.canceled, ej.cacheKeys⟩) }, []) := by
      simp only [receiveCancelJob, hnaw, hex]
    refine ⟨hcancel, ?_⟩
    intro result s' tr hcomp e he m
    rw [hcancel] at hcomp
    have hlk2 : assocLookup
        (assocUpdate s.executing jid ⟨.canceled, ej.cacheKeys⟩) jid =
        some ⟨.canceled, ej.cacheKeys⟩ :=
      assocLookup_update_self _ hex
    simp only [receiveJobCompleted, hlk2] at hcomp
    injection hcomp with hcomp
    injection hcomp with h1 h2
    subst h2
    simp only [brokerSendsFor, List.nil_append, List.mem_append] at he
    rcases he with he | he
    · obtain ⟨k, _, hk⟩ := List.mem_map.mp he
      subst hk
      simp
    · exact possiblyStartJob_no_sends _ e he m

/-- Witness for the amended C1: cancel of an already-canceled executing
job leaves the concrete dispatcher state unchanged. -/
theorem cancel_executing_behavior_witness :
    receiveCancelJob ⟨1, [], [], [(⟨1, 1⟩, ⟨.canceled, []⟩)]⟩ ⟨1, 1⟩ =
      (⟨1, [], [], [(⟨1, 1⟩, ⟨.canceled, []⟩)]⟩, []) :=
  (cancel_executing_behavior ⟨1, [], [], [(⟨1, 1⟩, ⟨.canceled, []⟩)]⟩ ⟨1, 1⟩
    ⟨.canceled, []⟩ rfl rfl).1 rfl

/-- In a trace `L1 ++ L2` where `L1` holds no decrements and `L2` holds no
broker sends, every send precedes every decrement. -/
theorem sends_before_decs (L1 L2 : List Effect)
    (h1 : ∀ e ∈ L1, ∀ k, e ≠ .cacheDecrementRefCount k)
    (h2 : ∀ e ∈ L2, ∀ m, e ≠ .sendMessageToBroker m) :
    ∀ i j (hi : i < (L1 ++ L2).length) (hj : j < (L1 ++ L2).length),
      (∃ m, (L1 ++ L2).get ⟨i, hi⟩ = .sendMessageToBroker m) →
      (∃ k, (L1 ++ L2).get ⟨j, hj⟩ = .cacheDecrementRefCount k) → i < j := by
  intro i j hi hj hsend hdec
  obtain ⟨m, hm⟩ := hsend
  obtain ⟨k, hk⟩ := hdec
  have hiL : i < L1.length := by
    by_contra hge
    push_neg at hge
    have heq : (L1 ++ L2).get ⟨i, hi⟩ =
        L2.get ⟨i - L1.length, by simp at hi; omega⟩ := by
      simp only [List.get_eq_getElem]
      exact List.getElem_append_right hge
    rw [heq] at hm
    exact h2 _ (List.get_mem _ _ _) m hm
  have hjL : L1.length ≤ j := by
    by_contra hlt
    push_neg at hlt
    have heq : (L1 ++ L2).get ⟨j, hj⟩ = L1.get ⟨j, hlt⟩ := by
      simp only [List.get_eq_getElem]
      exact List.getElem_append_left hlt
    rw [heq] at hk
    exact h1 _ (List.get_mem _ _ _) k hk
  omega

/-- **C2.** `JobCompleted(jid, result)` for an executing job: the broker
is sent the state-dependent message (`Nominal` → result mapped to
`Completed`, `TimedOut` → result mapped to `TimedOut` carrying the
effects, `Canceled` → nothing); each held cache key is decremented exactly
once, every decrement strictly after any broker send; and admission
(`possibly_start_job`) runs again on the state with the job removed. -/
theorem job_completed_behavior (s : DispatcherState) (jid : JobId)
    (ej : ExecutingJob) (result : JobResult JobCompletedMsg)
    (hex : assocLookup s.executing jid = some ej) :
    ∃ s' tr, receiveJobCompleted s jid result = some (s', tr) ∧
      tr = brokerSendsFor ej.state jid result
        ++ (ej.cacheKeys.map Effect.cacheDecrementRefCount
          ++ (possiblyStartJob { s with executing :=
              (assocErase s.executing jid) }).2) ∧
      s' = (possiblyStartJob { s with executing :=
          (assocErase s.executing jid) }).1 ∧
      brokerSendsFor .nominal jid result =
        [.sendMessageToBroker ⟨jid, result.map JobOutcome.completed⟩] ∧
      brokerSendsFor .timedOut jid result =
        [.sendMessageToBroker ⟨jid, result.map (fun c => .timedOut c.effects)⟩] ∧
      brokerSendsFor .canceled jid result = [] ∧
      (ej.cacheKeys.Nodup → ∀ k ∈ ej.cacheKeys,
        tr.count (.cacheDecrementRefCount k) = 1) ∧
      (∀ i j (hi : i < tr.length) (hj : j < tr.length),
        (∃ m, tr.get ⟨i, hi⟩ = .sendMessageToBroker m) →
        (∃ k, tr.get ⟨j, hj⟩ = .cacheDecrementRefCount k) → i < j) := by
  have hcomp : receiveJobCompleted s jid result =
      some ((possiblyStartJob { s with executing :=
          (assocErase s.executing jid) }).1,
        brokerSendsFor ej.state jid result
          ++ (ej.cacheKeys.map Effect.cacheDecrementRefCount
            ++ (possiblyStartJob { s with executing :=
                (assocErase s.executing jid) }).2)) := by
    simp only [receiveJobCompleted, hex, List.append_assoc]
  have hnosend : ∀ e ∈ ej.cacheKeys.map Effect.cacheDecrementRefCount
      ++ (possiblyStartJob { s with executing :=
          (assocErase s.executing jid) }).2,
      ∀ m, e ≠ .sendMessageToBroker m := by
    intro e he m
    rcases List.mem_append.mp he with he | he
    · obtain ⟨k', _, hk'⟩ := List.mem_map.mp he
      subst hk'
      simp
    · exact possiblyStartJob_no_sends _ e he m
  have hnodec : ∀ e ∈ brokerSendsFor ej.state jid result,
      ∀ k, e ≠ .cacheDecrementRefCount k := by
    intro e he k
    simp only [brokerSendsFor] at he
    cases hst : ej.state with
    | nominal =>
      rw [hst] at he
      simp at he
      subst he
      simp
    | canceled =>
      rw [hst] at he
      simp at he
    | timedOut =>
      rw [hst] at he
      simp at he
      subst he
      simp
  refine ⟨_, _, hcomp, rfl, rfl, rfl, rfl, rfl, ?_, ?_⟩
  · intro hnd k hk
    rw [List.count_append, List.count_append]
    have hc1 : (brokerSendsFor ej.state jid result).count
        (Effect.cacheDecrementRefCount k) = 0 := by
      rw [List.count_eq_zero]
      intro hmem
      exact hnodec _ hmem k rfl
    have hc2 : (ej.cacheKeys.map Effect.cacheDecrementRefCount).count
        (Effect.cacheDecrementRefCount k) = ej.cacheKeys.count k := by
      exact List.count_map_of_injective _ _
        (fun a b h => by injection h) k
    have hc3 : ((possiblyStartJob { s with executing :=
        (assocErase s.executing jid) }).2).count
        (Effect.cacheDecrementRefCount k) = 0 := by
      rw [List.count_eq_zero]
      intro hmem
      exact possiblyStartJob_no_decs _ _ hmem k rfl
    rw [hc1, hc2, hc3, List.count_eq_one_of_mem hnd hk]
  · exact sends_before_decs _ _ hnodec hnosend

/-- Witness for C2: a nominal job completes on a concrete dispatcher. -/
theorem job_completed_behavior_witness :
    ∃ s' tr,
      receiveJobCompleted ⟨1, [], [], [(⟨1, 1⟩, ⟨.nominal, [⟨.blob, [1]⟩]⟩)]⟩
        ⟨1, 1⟩ (.ok ⟨0, ⟨1, 2, 3⟩⟩) = some (s', tr) := by
  obtain ⟨s', tr, hcomp, _⟩ := job_completed_behavior
    ⟨1, [], [], [(⟨1, 1⟩, ⟨.nominal, [⟨.blob, [1]⟩]⟩)]⟩ ⟨1, 1⟩
    ⟨.nominal, [⟨.blob, [1]⟩]⟩ (.ok ⟨0, ⟨1, 2, 3⟩⟩) rfl
  exact ⟨s', tr, hcomp⟩

theorem cmpDuration_irrefl (d : Option Nat) : cmpDuration d d ≠ .lt := by
  cases d with
  | none => simp [cmpDuration]
  | some x =>
    simp only [cmpDuration, ne_eq, Nat.compare_eq_lt]
    omega

theorem cmpDuration_gt_iff_lt (a b : Option Nat) :
    cmpDuration a b = .gt ↔ cmpDuration b a = .lt := by
  cases a <;> cases b <;>
    simp [cmpDuration, Nat.compare_eq_gt, Nat.compare_eq_lt]

theorem cmpDuration_not_lt_trans {a b c : Option Nat}
    (h1 : cmpDuration a b ≠ .lt) (h2 : cmpDuration b c ≠ .lt) :
    cmpDuration a c ≠ .lt := by
  cases a with
  | none => cases c <;> simp [cmpDuration]
  | some x =>
    cases b with
    | none => simp [cmpDuration] at h1
    | some y =>
      cases c with
      | none => simp [cmpDuration] at h2
      | some z =>
        simp only [cmpDuration, ne_eq, Nat.compare_eq_lt] at h1 h2 ⊢
        omega

theorem popMax_eq_none {q : List AvailableJob} : popMax q = none ↔ q = [] := by
  cases q with
  | nil => simp [popMax]
  | cons y ys =>
    simp only [popMax]
    cases popMax ys with
    | none => simp
    | some mr =>
      obtain ⟨m, r⟩ := mr
      by_cases hc : y.cmp m = .lt <;> simp [hc]

/-- `BinaryHeap::pop` returns an element of the queue that is maximal
with respect to `Ord for AvailableJob`. -/
theorem popMax_spec :
    ∀ (q : List AvailableJob) (a : AvailableJob) (rest : List AvailableJob),
      popMax q = some (a, rest) → a ∈ q ∧ ∀ b ∈ q, a.cmp b ≠ .lt
  | [], _, _, h => by simp [popMax] at h
  | x :: q', a, rest, h => by
    simp only [popMax] at h
    split at h
    · rename_i hm
      injection h with h
      injection h with h1 h2
      subst h1
      have hq : q' = [] := popMax_eq_none.mp hm
      subst hq
      refine ⟨by simp, ?_⟩
      intro b hb
      simp only [List.mem_singleton] at hb
      subst hb
      exact cmpDuration_irrefl _
    · rename_i m rest' hm
      obtain ⟨hmem, hmax⟩ := popMax_spec q' m rest' hm
      split at h
      · rename_i hlt
        injection h with h
        injection h with h1 h2
        subst h1
        refine ⟨List.mem_cons_of_mem _ hmem, ?_⟩
        intro b hb
        rcases List.mem_cons.mp hb with rfl | hb'
        · intro hcon
          have hgt : AvailableJob.cmp m b = .gt :=
            (cmpDuration_gt_iff_lt _ _).mpr hlt
          rw [hcon] at hgt
          exact absurd hgt (by decide)
        · exact hmax b hb'
      · rename_i hnlt
        injection h with h
        injection h with h1 h2
        subst h1
        refine ⟨by simp, ?_⟩
        intro b hb
        rcases List.mem_cons.mp hb with rfl | hb'
        · exact cmpDuration_irrefl _
        · exact cmpDuration_not_lt_trans hnlt (hmax b hb')

/-- **C8.** When admission fires, the popped available job is maximal in
the LPT order: no queued job compares greater.  Between two jobs with
estimates, the longer estimate compares greater (so it is started first),
and a job with no estimate compares greater than — i.e. sorts after — any
job with one.  When a slot is free, `possibly_start_job` starts exactly
the popped job. -/
theorem lpt_admission (q : List AvailableJob) (a : AvailableJob)
    (rest : List AvailableJob) (hpop : popMax q = some (a, rest)) :
    (∀ b ∈ q, a.cmp b ≠ .lt) ∧
    (∀ b ∈ q, b.cmp a ≠ .gt) ∧
    (∀ x y : Nat, cmpDuration (some x) (some y) = compare x y) ∧
    (∀ d : Nat, cmpDuration none (some d) = .gt ∧
      cmpDuration (some d) none = .lt) ∧
    (∀ s : DispatcherState, s.available = q →
      s.executing.length < s.slots →
      possiblyStartJob s =
        ({ s with
            available := rest,
            executing := s.executing ++ [(a.jid, ⟨.nominal, a.cacheKeys⟩)] },
          (match a.spec.timeout with
            | none => []
            | some t => [Effect.startTimer a.jid t]) ++
            [Effect.startJob a.jid])) := by
  obtain ⟨hmem, hmax⟩ := popMax_spec q a rest hpop
  refine ⟨hmax, ?_, fun x y => rfl, fun d => ⟨rfl, rfl⟩, ?_⟩
  · intro b hb hgt
    exact hmax b hb ((cmpDuration_gt_iff_lt _ _).mp hgt)
  · intro s hq hlt
    unfold possiblyStartJob
    rw [if_neg (by omega), hq, hpop]

/-- Witness for C8: with one job estimated at 10 and one with no
estimate queued, the pop extracts the estimate-less job first. -/
theorem lpt_admission_witness :
    cmpDuration none (some 5) = Ordering.gt ∧
    cmpDuration (some 5) none = Ordering.lt :=
  (lpt_admission
    [⟨⟨1, 1⟩, ⟨none, some 10, 0⟩, [], []⟩, ⟨⟨2, 2⟩, ⟨none, none, 0⟩, [], []⟩]
    ⟨⟨2, 2⟩, ⟨none, none, 0⟩, [], []⟩
    [⟨⟨1, 1⟩, ⟨none, some 10, 0⟩, [], []⟩] rfl).2.2.2.1 5

end Maelstrom
